import Mathlib

/-!
# Shallow embedding of the `parse_rust` library

This file embeds the core of `src/lib.rs` of the `parse_rust` repository:

* `Parser::parse_format` — the template compiler producing an anchored and an
  unanchored regex pattern string plus the field tables;
* the built-in type converters (`IntConverter`, `FloatConverter`,
  `WordConverter`, `DateTimeConverter`) together with a model of the external
  libraries they rely on (the `regex` crate's matching on the emitted pattern
  strings, Rust's `str::parse` for `i64`/`f64`, and `chrono`'s
  `parse_from_str` for the fixed set of format strings appearing in the
  source);
* `Parser::process_captures`, `Parser::parse`, `Parser::search`,
  `Parser::findall` and the free functions `parse`, `search`, `findall`.

Machine integers are modelled as `Int`/`Nat` with explicit range checks where
the source can overflow (`i64` parsing).  Rust `HashMap`s are modelled as
association lists holding the same contents; where the source *iterates* a
`HashMap` (whose iteration order is unspecified), the iteration order is an
explicit parameter ranging over permutations of the map's entries.  String
positions are counted in characters; all inputs considered here are ASCII,
where this agrees with the byte offsets used by the `regex` crate.
-/

namespace ParseRust

set_option synthInstance.maxSize 1024

/-- Mirrors `enum ParseError` in `src/lib.rs`. -/
inductive ParseError where
  | InvalidFormat
  | NoMatch
  | TypeConversionFailed
deriving DecidableEq, Repr

instance {eps alp : Type} [DecidableEq eps] [DecidableEq alp] : DecidableEq (Except eps alp) :=
  fun a b =>
    match a, b with
    | .error x, .error y =>
      if h : x = y then .isTrue (by rw [h]) else .isFalse (by intro hc; cases hc; exact h rfl)
    | .ok x, .ok y =>
      if h : x = y then .isTrue (by rw [h]) else .isFalse (by intro hc; cases hc; exact h rfl)
    | .error _, .ok _ => .isFalse (by intro hc; cases hc)
    | .ok _, .error _ => .isFalse (by intro hc; cases hc)

/-! ## Calendar values (model of `chrono`'s naive types) -/

/-- A calendar date (model of `chrono::NaiveDate`). -/
structure CDate where
  year : Int
  month : Nat
  day : Nat
deriving DecidableEq, Repr

/-- A time of day (model of `chrono::NaiveTime`). -/
structure CTime where
  hour : Nat
  minute : Nat
  second : Nat
  nano : Nat
deriving DecidableEq, Repr

/-- A date-and-time (model of `chrono::NaiveDateTime`). -/
structure CDateTime where
  date : CDate
  time : CTime
deriving DecidableEq, Repr

/-- A converted value as stored in `ParseResult::converted`
(`Vec<Box<dyn Any>>` in the source: a heterogeneous list).  The numeric value
of a parsed `f64` is not modelled; the raw matched text is kept instead (no
claim inspects a float's value). -/
inductive RVal where
  | int (n : Int)
  | float (raw : String)
  | str (s : String)
  | dateTime (dt : CDateTime)
  | date (d : CDate)
  | time (t : CTime)
deriving DecidableEq, Repr

/-! ## Rust numeric string parsing -/

def i64Min : Int := -(2 ^ 63)

def i64Max : Int := 2 ^ 63 - 1

def digitsVal (ds : List Char) : Nat :=
  ds.foldl (fun a c => a * 10 + (c.toNat - 48)) 0

/-- Model of Rust `str::parse::<i64>`: an optional sign followed by one or
more ASCII digits, whose value must fit in the `i64` range. -/
def parseI64 (s : String) : Option Int :=
  let cs := s.toList
  let p : Int × List Char :=
    match cs with
    | '-' :: tl => (-1, tl)
    | '+' :: tl => (1, tl)
    | _ => (1, cs)
  if p.2 ≠ [] ∧ p.2.all Char.isDigit then
    let v : Int := p.1 * digitsVal p.2
    if i64Min ≤ v ∧ v ≤ i64Max then some v else none
  else none

def splitDigits (cs : List Char) : List Char × List Char :=
  (cs.takeWhile Char.isDigit, cs.dropWhile Char.isDigit)

/-- Model of the acceptance condition of Rust `str::parse::<f64>`:
optional sign, then `inf`/`infinity`/`nan` (case-insensitive) or a decimal
number with optional fractional part and optional exponent. -/
def f64Accepts (s : String) : Bool :=
  let cs := s.toList
  let cs := match cs with
    | '-' :: tl => tl
    | '+' :: tl => tl
    | _ => cs
  let low := cs.map Char.toLower
  if low = "inf".toList || low = "infinity".toList || low = "nan".toList then
    true
  else
    let ip := splitDigits cs
    let fp : List Char × List Char :=
      match ip.2 with
      | '.' :: tl => splitDigits tl
      | _ => ([], ip.2)
    if ip.1.isEmpty && fp.1.isEmpty then false
    else
      match fp.2 with
      | [] => true
      | e :: tl =>
        if e = 'e' || e = 'E' then
          let tl := match tl with
            | '-' :: u => u
            | '+' :: u => u
            | _ => tl
          let ed := splitDigits tl
          !ed.1.isEmpty && ed.2.isEmpty
        else false

/-! ## Regex engine

A model of the `regex` crate restricted to the constructs reachable from the
pattern strings this library emits: literal characters, `.`, anchors,
character classes, `(?:…)`/capturing groups, alternation, and the
repetition operators.  Matching is leftmost-first with greedy repetition and
optional ASCII-style case folding, as in the crate.  Group captures record the
lengths of the remaining suffix at the group's start and end. -/

/-- One item of a character class. -/
inductive CItem where
  | ch (c : Char)
  | range (lo hi : Char)
  | digit
  | word
  | space
deriving DecidableEq, Repr

def isWordChar (c : Char) : Bool := c.isAlphanum || c = '_'

def isSpaceChar (c : Char) : Bool :=
  c = ' ' || c = '\t' || c = '\n' || c = '\r' || c = '\x0b' || c = '\x0c'

def foldCase (ci : Bool) (c : Char) : Char := if ci then c.toLower else c

def CItem.hits (ci : Bool) : CItem → Char → Bool
  | .ch a, c => foldCase ci a = foldCase ci c
  | .range lo hi, c =>
    (lo ≤ c && c ≤ hi) ||
      (ci && ((lo ≤ c.toLower && c.toLower ≤ hi) || (lo ≤ c.toUpper && c.toUpper ≤ hi)))
  | .digit, c => c.isDigit
  | .word, c => isWordChar c
  | .space, c => isSpaceChar c

/-- Regex abstract syntax. -/
inductive RE where
  | eps
  | bol
  | eol
  | dot
  | lit (c : Char)
  | cls (neg : Bool) (items : List CItem)
  | seq (a b : RE)
  | alt (a b : RE)
  | star (a : RE)
  | group (idx : Nat) (a : RE)
deriving DecidableEq, Repr, Inhabited

def RE.size : RE → Nat
  | .eps | .bol | .eol | .dot | .lit _ | .cls _ _ => 1
  | .seq a b | .alt a b => a.size + b.size + 1
  | .star a => a.size + 1
  | .group _ a => a.size + 1

/-- Captured groups: entries `(index, suffix length at start, suffix length
at end)`, most recent first. -/
abbrev Caps := List (Nat × Nat × Nat)

/-- The backtracking matcher.  `total` is the length of the whole haystack
(`bol` matches exactly when nothing has been consumed yet, `eol` at the very
end, as in the `regex` crate without multi-line mode).  Returns the list of
all ways to match a prefix of `rest`, as pairs of the remaining suffix and
the captures, in the engine's preference order: the head is the
leftmost-first match.  `fuel` bounds the recursion depth; it is instantiated
generously enough below that it never runs out on the inputs considered. -/
def mtch (ci : Bool) (total : Nat) : Nat → RE → List Char → Caps → List (List Char × Caps)
  | 0, _, _, _ => []
  | _ + 1, .eps, rest, caps => [(rest, caps)]
  | _ + 1, .bol, rest, caps => if rest.length = total then [(rest, caps)] else []
  | _ + 1, .eol, rest, caps => if rest.isEmpty then [(rest, caps)] else []
  | _ + 1, .dot, rest, caps =>
    match rest with
    | [] => []
    | c :: tl => if c = '\n' then [] else [(tl, caps)]
  | _ + 1, .lit a, rest, caps =>
    match rest with
    | [] => []
    | c :: tl => if foldCase ci a = foldCase ci c then [(tl, caps)] else []
  | _ + 1, .cls neg items, rest, caps =>
    match rest with
    | [] => []
    | c :: tl => if items.any (fun it => it.hits ci c) ≠ neg then [(tl, caps)] else []
  | fuel + 1, .seq a b, rest, caps =>
    (mtch ci total fuel a rest caps).flatMap (fun rc => mtch ci total fuel b rc.1 rc.2)
  | fuel + 1, .alt a b, rest, caps =>
    mtch ci total fuel a rest caps ++ mtch ci total fuel b rest caps
  | fuel + 1, .star a, rest, caps =>
    ((mtch ci total fuel a rest caps).flatMap (fun rc =>
        if rc.1.length < rest.length then mtch ci total fuel (.star a) rc.1 rc.2 else [])) ++
      [(rest, caps)]
  | fuel + 1, .group i a, rest, caps =>
    (mtch ci total fuel a rest caps).map (fun rc => (rc.1, (i, rest.length, rc.1.length) :: rc.2))

def fuelFor (re : RE) (len : Nat) : Nat := (len + 2) * (re.size + 2)

/-- Leftmost search: try each start position left to right; at a given start
take the engine's first preference.  Returns `(match start, match end,
captures)` with positions measured from the start of the haystack. -/
def searchFrom (ci : Bool) (re : RE) (total : Nat) : List Char → Option (Nat × Nat × Caps)
  | [] =>
    match (mtch ci total (fuelFor re total) re [] []).head? with
    | some rc => some (total, total - rc.1.length, rc.2)
    | none => none
  | c :: tl =>
    match (mtch ci total (fuelFor re total) re (c :: tl) []).head? with
    | some rc => some (total - (c :: tl).length, total - rc.1.length, rc.2)
    | none => searchFrom ci re total tl

/-- A successful match: the haystack, the overall span and the group
captures (model of `regex::Captures`). -/
structure CapsCtx where
  text : List Char
  mstart : Nat
  mend : Nat
  caps : Caps
deriving DecidableEq, Repr

def sliceStr (text : List Char) (s e : Nat) : String :=
  String.mk ((text.drop s).take (e - s))

/-- Model of `caps.get(i)`: the group's matched substring and its
`(start, end)` span. -/
def CapsCtx.get (cc : CapsCtx) (i : Nat) : Option (String × Nat × Nat) :=
  (cc.caps.find? (fun e => e.1 = i)).map (fun e =>
    let s := cc.text.length - e.2.1
    let en := cc.text.length - e.2.2
    (sliceStr cc.text s en, s, en))

/-- Model of `Regex::captures`: the leftmost match, if any. -/
def reCaptures (ci : Bool) (re : RE) (text : String) : Option CapsCtx :=
  let tl := text.toList
  (searchFrom ci re tl.length tl).map (fun x => ⟨tl, x.1, x.2.1, x.2.2⟩)

/-- Model of `Regex::captures_iter`: repeated leftmost search, each scan
resuming at the previous match's end (one past it for an empty match). -/
def capturesListAux (ci : Bool) (re : RE) (tl : List Char) : Nat → Nat → List CapsCtx
  | 0, _ => []
  | fuel + 1, cur =>
    match searchFrom ci re tl.length (tl.drop cur) with
    | none => []
    | some (s, e, cp) =>
      let nxt := if e = s then e + 1 else e
      ⟨tl, s, e, cp⟩ ::
        (if nxt ≤ tl.length then capturesListAux ci re tl fuel nxt else [])

def capturesList (ci : Bool) (re : RE) (text : String) : List CapsCtx :=
  let tl := text.toList
  capturesListAux ci re tl (tl.length + 1) 0

/-! ## Regex syntax parsing

A model of the `regex` crate's pattern parser, restricted to the syntax
reachable from the pattern strings this library can emit (plus unmatched
parentheses and stray operators, which are parse errors as in the crate).
The parser is a single left-to-right scan with an explicit stack of open
groups. -/

def RE.opt (a : RE) : RE := .alt a .eps

def RE.reps (a : RE) : Nat → RE
  | 0 => .eps
  | n + 1 => .seq a (RE.reps a n)

/-- Greedy `a{0,n}`: prefer taking another `a` over stopping. -/
def RE.optChain (a : RE) : Nat → RE
  | 0 => .eps
  | n + 1 => .alt (.seq a (RE.optChain a n)) .eps

/-- `a{m}`, `a{m,}` or `a{m,n}` (the three repetition forms). -/
def repRE (a : RE) (m : Nat) : Option (Option Nat) → RE
  | none => RE.reps a m
  | some none => .seq (RE.reps a m) (.star a)
  | some (some n) => .seq (RE.reps a m) (RE.optChain a (n - m))

/-- Escape sequences outside character classes.  Escaped punctuation is the
literal character; unknown alphanumeric escapes (including back-references,
which the `regex` crate does not support) are errors. -/
def escRE (c : Char) : Option RE :=
  if c = 'd' then some (.cls false [.digit])
  else if c = 'w' then some (.cls false [.word])
  else if c = 's' then some (.cls false [.space])
  else if c = 'D' then some (.cls true [.digit])
  else if c = 'W' then some (.cls true [.word])
  else if c = 'S' then some (.cls true [.space])
  else if c = 'n' then some (.lit '\n')
  else if c = 't' then some (.lit '\t')
  else if c = 'r' then some (.lit '\r')
  else if c.isAlphanum then none
  else some (.lit c)

/-- Escape sequences inside character classes. -/
def escItem (c : Char) : Option CItem :=
  if c = 'd' then some .digit
  else if c = 'w' then some .word
  else if c = 's' then some .space
  else if c = 'n' then some (.ch '\n')
  else if c = 't' then some (.ch '\t')
  else if c = 'r' then some (.ch '\r')
  else if c.isAlphanum then none
  else some (.ch c)

/-- An open group during regex parsing: its capture index (`none` for a
non-capturing group), the completed alternation arms so far and the atoms of
the current arm, both most recent first. -/
structure PFrame where
  gidx : Option Nat
  alts : List RE
  cur : List RE

/-- Sequence the atoms of an arm (stored most recent first). -/
def curRE (cur : List RE) : RE := cur.foldl (fun acc a => RE.seq a acc) RE.eps

/-- Close a frame into a single regex. -/
def frameClose (f : PFrame) : RE :=
  let arm := f.alts.foldl (fun acc a => RE.alt a acc) (curRE f.cur)
  match f.gidx with
  | none => arm
  | some i => .group i arm

/-- The scanner's sub-state: at top level, inside a character class (with the
items accepted so far), or inside a repetition `{…}` (with the digits read so
far, before or after the comma). -/
inductive RMode where
  | top
  | inCls (neg : Bool) (items : List CItem)
  | rep1 (ds : List Char)
  | rep2 (m : Nat) (ds : List Char)

/-- The scan itself: a single left-to-right pass.  `g` is the next
capture-group index (the crate numbers groups 1, 2, … in order of their
opening parentheses); `stack` holds the enclosing open groups. -/
def rparseAux : (s : List Char) → (mode : RMode) → (g : Nat) → (stack : List PFrame) →
    (f : PFrame) → Option (RE × Nat)
  | [], .top, g, stack, f =>
    match stack with
    | [] => some (frameClose f, g)
    | _ => none
  | [], _, _, _, _ => none
  | '(' :: '?' :: ':' :: tl, .top, g, stack, f => rparseAux tl .top g (f :: stack) ⟨none, [], []⟩
  | '(' :: tl, .top, g, stack, f => rparseAux tl .top (g + 1) (f :: stack) ⟨some g, [], []⟩
  | '\\' :: e :: tl, .top, g, stack, f =>
    match escRE e with
    | none => none
    | some re => rparseAux tl .top g stack { f with cur := re :: f.cur }
  | ['\\'], .top, _, _, _ => none
  | '[' :: '^' :: tl, .top, g, stack, f => rparseAux tl (.inCls true []) g stack f
  | '[' :: tl, .top, g, stack, f => rparseAux tl (.inCls false []) g stack f
  | c :: tl, .top, g, stack, f =>
    if c = ')' then
      match stack with
      | [] => none
      | pf :: stack2 => rparseAux tl .top g stack2 { pf with cur := frameClose f :: pf.cur }
    else if c = '|' then
      rparseAux tl .top g stack { f with alts := curRE f.cur :: f.alts, cur := [] }
    else if c = '?' then
      match f.cur with
      | [] => none
      | a :: cs => rparseAux tl .top g stack { f with cur := RE.opt a :: cs }
    else if c = '*' then
      match f.cur with
      | [] => none
      | a :: cs => rparseAux tl .top g stack { f with cur := RE.star a :: cs }
    else if c = '+' then
      match f.cur with
      | [] => none
      | a :: cs => rparseAux tl .top g stack { f with cur := RE.seq a (RE.star a) :: cs }
    else if c = '\x7b' then
      match f.cur with
      | [] => none
      | _ :: _ => rparseAux tl (.rep1 []) g stack f
    else if c = '.' then rparseAux tl .top g stack { f with cur := RE.dot :: f.cur }
    else if c = '^' then rparseAux tl .top g stack { f with cur := RE.bol :: f.cur }
    else if c = '$' then rparseAux tl .top g stack { f with cur := RE.eol :: f.cur }
    else rparseAux tl .top g stack { f with cur := RE.lit c :: f.cur }
  | ']' :: tl, .inCls neg items, g, stack, f =>
    rparseAux tl .top g stack { f with cur := RE.cls neg items :: f.cur }
  | '\\' :: e :: tl, .inCls neg items, g, stack, f =>
    match escItem e with
    | none => none
    | some it => rparseAux tl (.inCls neg (items ++ [it])) g stack f
  | ['\\'], .inCls _ _, _, _, _ => none
  | a :: '-' :: b :: tl, .inCls neg items, g, stack, f =>
    if b = ']' then
      rparseAux tl .top g stack { f with cur := RE.cls neg (items ++ [.ch a, .ch '-']) :: f.cur }
    else rparseAux tl (.inCls neg (items ++ [.range a b])) g stack f
  | a :: tl, .inCls neg items, g, stack, f =>
    rparseAux tl (.inCls neg (items ++ [.ch a])) g stack f
  | c :: tl, .rep1 ds, g, stack, f =>
    if c.isDigit then rparseAux tl (.rep1 (ds ++ [c])) g stack f
    else if c = '\x7d' then
      if ds.isEmpty then none
      else
        match f.cur with
        | [] => none
        | a :: cs => rparseAux tl .top g stack { f with cur := repRE a (digitsVal ds) none :: cs }
    else if c = ',' then
      if ds.isEmpty then none else rparseAux tl (.rep2 (digitsVal ds) []) g stack f
    else none
  | c :: tl, .rep2 m ds, g, stack, f =>
    if c.isDigit then rparseAux tl (.rep2 m (ds ++ [c])) g stack f
    else if c = '\x7d' then
      match f.cur with
      | [] => none
      | a :: cs =>
        if ds.isEmpty then
          rparseAux tl .top g stack { f with cur := repRE a m (some none) :: cs }
        else
          rparseAux tl .top g stack { f with cur := repRE a m (some (some (digitsVal ds))) :: cs }
    else none

/-- Model of `RegexBuilder::build` on a pattern string: parse it into an
`RE`, or fail. -/
def compileRegex (s : String) : Option RE :=
  (rparseAux s.toList .top 1 [] ⟨none, [], []⟩).map (fun x => x.1)

/-! ## Calendar arithmetic (model of `chrono`'s internals) -/

def isLeapYear (y : Int) : Bool := (y % 4 = 0 && y % 100 ≠ 0) || y % 400 = 0

def daysInMonth (y : Int) (m : Nat) : Nat :=
  if m = 1 || m = 3 || m = 5 || m = 7 || m = 8 || m = 10 || m = 12 then 31
  else if m = 4 || m = 6 || m = 9 || m = 11 then 30
  else if m = 2 then (if isLeapYear y then 29 else 28)
  else 0

def validDate (y : Int) (m d : Nat) : Bool :=
  1 ≤ m && m ≤ 12 && 1 ≤ d && d ≤ daysInMonth y m

/-- Days since 1970-01-01 of a civil date (Howard Hinnant's algorithm, as
used by calendar libraries including `chrono`). -/
def daysFromCivil (year : Int) (month day : Nat) : Int :=
  let y : Int := if month ≤ 2 then year - 1 else year
  let m : Int := month
  let d : Int := day
  let era : Int := Int.fdiv y 400
  let yoe : Int := y - era * 400
  let doy : Int := Int.fdiv (153 * (if 2 < m then m - 3 else m + 9) + 2) 5 + d - 1
  let doe : Int := yoe * 365 + Int.fdiv yoe 4 - Int.fdiv yoe 100 + doy
  era * 146097 + doe - 719468

/-- Inverse of `daysFromCivil`. -/
def civilFromDays (z0 : Int) : Int × Nat × Nat :=
  let z := z0 + 719468
  let era := Int.fdiv z 146097
  let doe := z - era * 146097
  let yoe := Int.fdiv (doe - Int.fdiv doe 1460 + Int.fdiv doe 36524 - Int.fdiv doe 146096) 365
  let y := yoe + era * 400
  let doy := doe - (365 * yoe + Int.fdiv yoe 4 - Int.fdiv yoe 100)
  let mp := Int.fdiv (5 * doy + 2) 153
  let d := doy - Int.fdiv (153 * mp + 2) 5 + 1
  let m := if mp < 10 then mp + 3 else mp - 9
  ((if m ≤ 2 then y + 1 else y), m.toNat, d.toNat)

/-- Weekday of a day number, 0 = Monday … 6 = Sunday. -/
def wdayOf (days : Int) : Nat := ((Int.emod (days + 3) 7)).toNat

def toEpochSec (dt : CDateTime) : Int :=
  daysFromCivil dt.date.year dt.date.month dt.date.day * 86400 +
    dt.time.hour * 3600 + dt.time.minute * 60 + dt.time.second

def ofEpochSec (n : Int) (nano : Nat) : CDateTime :=
  let days := Int.fdiv n 86400
  let rem := (Int.emod n 86400).toNat
  let c := civilFromDays days
  ⟨⟨c.1, c.2.1, c.2.2⟩, ⟨rem / 3600, rem % 3600 / 60, rem % 60, nano⟩⟩

/-- `DateTime::naive_utc` after parsing with an offset: subtract the offset. -/
def naiveUtc (dt : CDateTime) (offSec : Int) : CDateTime :=
  ofEpochSec (toEpochSec dt - offSec) dt.time.nano

/-! ## `chrono` strftime-style parsing

A model of `chrono`'s `parse_from_str` family restricted to the format
directives appearing in `src/lib.rs`: `%d %m %Y %H %M %S %I %p %a %b %z %:z
%.3f` plus literal characters (a whitespace character in the format skips any
run of whitespace in the input; numeric directives also skip leading
whitespace, as `chrono` does). -/

/-- The field collection built during parsing (model of `chrono::format::Parsed`).
`chrono` stores the hour as its two components `hour_div_12` (set by `%H` and
`%p`) and `hour_mod_12` (set by `%H` and `%I`); both are needed to recover a
time of day. -/
structure ChronoParsed where
  year : Option Int
  month : Option Nat
  day : Option Nat
  hourDiv : Option Nat
  hourMod : Option Nat
  minute : Option Nat
  second : Option Nat
  nano : Option Nat
  offset : Option Int
  weekday : Option Nat
deriving DecidableEq, Repr

def emptyParsed : ChronoParsed :=
  ⟨none, none, none, none, none, none, none, none, none, none⟩

/-- Setting a field that is already set to a different value is an error,
as in `chrono::format::Parsed::set_…`. -/
def setF {α : Type} [DecidableEq α] (cur : Option α) (v : α) : Option (Option α) :=
  match cur with
  | none => some (some v)
  | some w => if w = v then some (some v) else none

/-- Read up to `max` leading ASCII digits. -/
def takeDigits : Nat → List Char → List Char × List Char
  | 0, s => ([], s)
  | _ + 1, [] => ([], [])
  | m + 1, c :: tl =>
    if c.isDigit then
      let p := takeDigits m tl
      (c :: p.1, p.2)
    else ([], c :: tl)

def skipWs (s : List Char) : List Char := s.dropWhile (fun c => c.isWhitespace)

/-- Numeric directive: skip whitespace, then 1 to `max` digits. -/
def readNum (max : Nat) (s : List Char) : Option (Nat × List Char) :=
  let s := skipWs s
  let p := takeDigits max s
  if p.1.isEmpty then none else some (digitsVal p.1, p.2)

def monthNames : List String :=
  ["Jan", "Feb", "Mar", "Apr", "May", "Jun", "Jul", "Aug", "Sep", "Oct", "Nov", "Dec"]

def wdayNames : List String :=
  ["Mon", "Tue", "Wed", "Thu", "Fri", "Sat", "Sun"]

def lowerEq (a b : List Char) : Bool := a.map Char.toLower = b.map Char.toLower

/-- Match one name of `names` (case-insensitively) as a prefix; give its
0-based index and the remaining input. -/
def readName (names : List String) (s : List Char) : Option (Nat × List Char) :=
  (names.enum.findSome? (fun ni =>
    let n := ni.2.toList
    if lowerEq (s.take n.length) n && n.length ≤ s.length then some (ni.1, s.drop n.length)
    else none))

/-- Read a UTC offset `±HH:MM` or `±HHMM` (colon optional), in seconds. -/
def readOffset (s : List Char) : Option (Int × List Char) :=
  let s := skipWs s
  match s with
  | sgn :: h1 :: h2 :: tl =>
    if (sgn = '+' || sgn = '-') && h1.isDigit && h2.isDigit then
      let rest := match tl with
        | ':' :: u => u
        | u => u
      match rest with
      | m1 :: m2 :: tl2 =>
        if m1.isDigit && m2.isDigit then
          let hh := digitsVal [h1, h2]
          let mm := digitsVal [m1, m2]
          let v : Int := hh * 3600 + mm * 60
          some ((if sgn = '-' then -v else v), tl2)
        else none
      | _ => none
    else none
  | _ => none

/-- Run a format string against an input (model of `chrono`'s parse loop).
Unknown directives fail; the caller checks the input is fully consumed. -/
def runFmt : List Char → List Char → ChronoParsed → Option (ChronoParsed × List Char)
  | [], s, p => some (p, s)
  | '%' :: 'd' :: ft, s, p => do
    let r ← readNum 2 s
    let d ← setF p.day r.1
    runFmt ft r.2 { p with day := d }
  | '%' :: 'm' :: ft, s, p => do
    let r ← readNum 2 s
    let m ← setF p.month r.1
    runFmt ft r.2 { p with month := m }
  | '%' :: 'Y' :: ft, s, p => do
    let r ← readNum 4 s
    let y ← setF p.year (Int.ofNat r.1)
    runFmt ft r.2 { p with year := y }
  | '%' :: 'H' :: ft, s, p => do
    let r ← readNum 2 s
    let dv ← setF p.hourDiv (r.1 / 12)
    let md ← setF p.hourMod (r.1 % 12)
    if r.1 ≤ 23 then runFmt ft r.2 { p with hourDiv := dv, hourMod := md } else none
  | '%' :: 'I' :: ft, s, p => do
    let r ← readNum 2 s
    if 1 ≤ r.1 && r.1 ≤ 12 then do
      let md ← setF p.hourMod (r.1 % 12)
      runFmt ft r.2 { p with hourMod := md }
    else none
  | '%' :: 'M' :: ft, s, p => do
    let r ← readNum 2 s
    let m ← setF p.minute r.1
    runFmt ft r.2 { p with minute := m }
  | '%' :: 'S' :: ft, s, p => do
    let r ← readNum 2 s
    let sec ← setF p.second r.1
    runFmt ft r.2 { p with second := sec }
  | '%' :: 'p' :: ft, s, p =>
    (match s with
     | a :: b :: tl =>
       if lowerEq [a, b] ['a', 'm'] then do
         let dv ← setF p.hourDiv 0
         runFmt ft tl { p with hourDiv := dv }
       else if lowerEq [a, b] ['p', 'm'] then do
         let dv ← setF p.hourDiv 1
         runFmt ft tl { p with hourDiv := dv }
       else none
     | _ => none)
  | '%' :: 'b' :: ft, s, p => do
    let r ← readName monthNames s
    let m ← setF p.month (r.1 + 1)
    runFmt ft r.2 { p with month := m }
  | '%' :: 'a' :: ft, s, p => do
    let r ← readName wdayNames s
    let w ← setF p.weekday r.1
    runFmt ft r.2 { p with weekday := w }
  | '%' :: ':' :: 'z' :: ft, s, p => do
    let r ← readOffset s
    let o ← setF p.offset r.1
    runFmt ft r.2 { p with offset := o }
  | '%' :: 'z' :: ft, s, p => do
    let r ← readOffset s
    let o ← setF p.offset r.1
    runFmt ft r.2 { p with offset := o }
  | '%' :: '.' :: '3' :: 'f' :: ft, s, p =>
    (match s with
     | '.' :: d1 :: d2 :: d3 :: tl =>
       if d1.isDigit && d2.isDigit && d3.isDigit then do
         let nn ← setF p.nano (digitsVal [d1, d2, d3] * 1000000)
         runFmt ft tl { p with nano := nn }
       else none
     | _ => none)
  | '%' :: '%' :: ft, s, p =>
    (match s with
     | '%' :: tl => runFmt ft tl p
     | _ => none)
  | '%' :: _ :: _, _, _ => none
  | ['%'], _, _ => none
  | fc :: ft, s, p =>
    if fc.isWhitespace then runFmt ft (skipWs s) p
    else
      match s with
      | c :: tl => if c = fc then runFmt ft tl p else none
      | [] => none

/-- `Parsed::to_naive_date`: needs year, month, day; validates the calendar
date and, when a weekday was parsed, its consistency. -/
def toNaiveDate (p : ChronoParsed) : Option CDate :=
  match p.year, p.month, p.day with
  | some y, some m, some d =>
    if validDate y m d then
      match p.weekday with
      | none => some ⟨y, m, d⟩
      | some w => if wdayOf (daysFromCivil y m d) = w then some ⟨y, m, d⟩ else none
    else none
  | _, _, _ => none

/-- `Parsed::to_naive_time`: needs both hour components and the minute;
second and fraction default to 0. -/
def toNaiveTime (p : ChronoParsed) : Option CTime :=
  match p.hourDiv, p.hourMod, p.minute with
  | some dv, some md, some mnt =>
    let h := dv * 12 + md
    if h ≤ 23 && mnt ≤ 59 && p.second.getD 0 ≤ 59 then
      some ⟨h, mnt, p.second.getD 0, p.nano.getD 0⟩
    else none
  | _, _, _ => none

/-- `parse_from_str` requires the whole input consumed. -/
def chronoRun (fmt s : String) : Option ChronoParsed :=
  match runFmt fmt.toList s.toList emptyParsed with
  | some (p, []) => some p
  | _ => none

/-- Model of `NaiveDateTime::parse_from_str`. -/
def ndtParse (fmt s : String) : Option CDateTime :=
  (chronoRun fmt s).bind (fun p =>
    match toNaiveDate p, toNaiveTime p with
    | some d, some t => some ⟨d, t⟩
    | _, _ => none)

/-- Model of `NaiveDate::parse_from_str`. -/
def dateParse (fmt s : String) : Option CDate :=
  (chronoRun fmt s).bind toNaiveDate

/-- Model of `NaiveTime::parse_from_str`. -/
def timeParse (fmt s : String) : Option CTime :=
  (chronoRun fmt s).bind toNaiveTime

/-- Model of `DateTime::parse_from_str(..).naive_utc()`: needs an offset and
shifts the local reading back to UTC. -/
def dtOffsetParse (fmt s : String) : Option CDateTime :=
  (chronoRun fmt s).bind (fun p =>
    match toNaiveDate p, toNaiveTime p, p.offset with
    | some d, some t, some off => some (naiveUtc ⟨d, t⟩ off)
    | _, _, _ => none)

/-! ## The built-in type converters -/

def intPattern : String := "-?\\d+"

def floatPattern : String := "-?\\d*\\.?\\d+"

def wordPattern : String := "\\w+"

def tgPattern : String :=
  "\\d\x7b1,2\x7d/\\d\x7b1,2\x7d/\\d\x7b4\x7d(?:\\s+\\d\x7b1,2\x7d:\\d\x7b2\x7d(?::\\d\x7b2\x7d)?(?:\\s*(?:AM|PM))?)?|\\d\x7b4\x7d/\\d\x7b1,2\x7d/\\d\x7b1,2\x7d(?:\\s+\\d\x7b1,2\x7d:\\d\x7b2\x7d(?::\\d\x7b2\x7d)?(?:\\s*(?:AM|PM))?)?|\\d\x7b1,2\x7d:\\d\x7b2\x7d(?::\\d\x7b2\x7d)?(?:\\s*(?:AM|PM))?"

def taPattern : String :=
  "\\d\x7b1,2\x7d/\\d\x7b1,2\x7d/\\d\x7b4\x7d(?:\\s+\\d\x7b1,2\x7d:\\d\x7b2\x7d(?::\\d\x7b2\x7d)?(?:\\s*(?:AM|PM))?)?"

def tePattern : String :=
  "(?:[A-Za-z]\x7b3\x7d,\\s+)?\\d\x7b1,2\x7d\\s+[A-Za-z]\x7b3\x7d\\s+\\d\x7b4\x7d(?:\\s+\\d\x7b2\x7d:\\d\x7b2\x7d:\\d\x7b2\x7d\\s+[-+]\\d\x7b4\x7d)?"

def thPattern : String :=
  "\\d\x7b2\x7d/[A-Za-z]\x7b3\x7d/\\d\x7b4\x7d:\\d\x7b2\x7d:\\d\x7b2\x7d:\\d\x7b2\x7d\\s+[-+]\\d\x7b4\x7d"

def tsPattern : String :=
  "[A-Za-z]\x7b3\x7d\\s+\\d\x7b1,2\x7d\\s+\\d\x7b4\x7d\\s+\\d\x7b2\x7d:\\d\x7b2\x7d:\\d\x7b2\x7d"

def tiPattern : String :=
  "\\d\x7b4\x7d-\\d\x7b1,2\x7d-\\d\x7b1,2\x7d(?:T\\d\x7b2\x7d:\\d\x7b2\x7d:\\d\x7b2\x7d(?:\\.\\d\x7b3\x7d)?(?:Z|[+-]\\d\x7b2\x7d:\\d\x7b2\x7d)?)?"

/-- The candidate layout lists of `DateTimeConverter::convert`, verbatim from
the source; an unknown `format_type` has none (`_ => return Err(…)`). -/
def dtFormats : String → Option (List String)
  | "tg" => some
    ["%d/%m/%Y %H:%M:%S", "%d/%m/%Y %H:%M", "%d/%m/%Y %I:%M:%S %p", "%d/%m/%Y %I:%M %p",
     "%Y/%m/%d %H:%M:%S", "%Y/%m/%d %H:%M", "%Y/%m/%d %I:%M:%S %p", "%Y/%m/%d %I:%M %p",
     "%d/%m/%Y", "%Y/%m/%d",
     "%H:%M:%S", "%H:%M", "%I:%M:%S %p", "%I:%M %p"]
  | "ta" => some
    ["%m/%d/%Y %I:%M:%S %p", "%m/%d/%Y %I:%M %p", "%m/%d/%Y %H:%M:%S", "%m/%d/%Y %H:%M",
     "%m/%d/%Y"]
  | "te" => some
    ["%a, %d %b %Y %H:%M:%S %z", "%d %b %Y %H:%M:%S %z", "%d %b %Y"]
  | "th" => some ["%d/%b/%Y:%H:%M:%S %z"]
  | "ts" => some ["%b %d %Y %H:%M:%S"]
  | "ti" => some
    ["%Y-%m-%dT%H:%M:%S%.3f%:z", "%Y-%m-%dT%H:%M:%S%:z", "%Y-%m-%dT%H:%M:%S%.3f",
     "%Y-%m-%dT%H:%M:%S", "%Y-%m-%d"]
  | _ => none

def strContains (hay needle : String) : Bool :=
  decide (needle.toList <:+: hay.toList)

/-- One layout's first-stage attempt in `DateTimeConverter::convert`:
`DateTime::parse_from_str(..).naive_utc()` when the layout contains `%z` or
`%:z`, else `NaiveDateTime::parse_from_str`. -/
def dtStage1 (f s : String) : Option RVal :=
  if strContains f "%z" || strContains f "%:z" then (dtOffsetParse f s).map RVal.dateTime
  else (ndtParse f s).map RVal.dateTime

/-- `DateTimeConverter::convert`: try each candidate layout in order, first as
a date-and-time (with the offset variant for layouts containing a zone
directive), then date-only, then time-only; exhausting all candidates is
`TypeConversionFailed`. -/
def dtConvert (formatType s : String) : Except ParseError RVal :=
  match dtFormats formatType with
  | none => .error .TypeConversionFailed
  | some formats =>
    match formats.findSome? (fun f => dtStage1 f s) with
    | some v => .ok v
    | none =>
      match formats.findSome? (fun f => (dateParse f s).map RVal.date) with
      | some v => .ok v
      | none =>
        match formats.findSome? (fun f => (timeParse f s).map RVal.time) with
        | some v => .ok v
        | none => .error .TypeConversionFailed

/-- A registered converter (`Box<dyn TypeConverter>` in the source; the
default registry holds exactly the four built-in kinds). -/
inductive Conv where
  | intC
  | floatC
  | wordC
  | dtC (formatType : String)
deriving DecidableEq, Repr

/-- `TypeConverter::get_pattern`. -/
def Conv.getPattern : Conv → Option String
  | .intC => some intPattern
  | .floatC => some floatPattern
  | .wordC => some wordPattern
  | .dtC ft =>
    if ft = "tg" then some tgPattern
    else if ft = "ta" then some taPattern
    else if ft = "te" then some tePattern
    else if ft = "th" then some thPattern
    else if ft = "ts" then some tsPattern
    else if ft = "ti" then some tiPattern
    else none

/-- `TypeConverter::convert`. -/
def Conv.convert : Conv → String → Except ParseError RVal
  | .intC, s =>
    match parseI64 s with
    | some n => .ok (.int n)
    | none => .error .TypeConversionFailed
  | .floatC, s => if f64Accepts s then .ok (.float s) else .error .TypeConversionFailed
  | .wordC, s => .ok (.str s)
  | .dtC ft, s => dtConvert ft s

/-- The default registry (`DEFAULT_TYPES`), as rebuilt by `Parser::new`. -/
def defaultTypes : List (String × Conv) :=
  [("d", .intC), ("f", .floatC), ("w", .wordC),
   ("tg", .dtC "tg"), ("ta", .dtC "ta"), ("te", .dtC "te"),
   ("th", .dtC "th"), ("ts", .dtC "ts"), ("ti", .dtC "ti")]

def lookupAssoc {α : Type} (m : List (String × α)) (k : String) : Option α :=
  (m.find? (fun e => e.1 = k)).map (fun e => e.2)

/-- `HashMap::insert`: replace the value under an existing key, else add the
entry (the list order models insertion order; the map contents are what the
source's `HashMap` holds). -/
def insertAssoc {α : Type} (m : List (String × α)) (k : String) (v : α) : List (String × α) :=
  match m with
  | [] => [(k, v)]
  | (k2, v2) :: tl => if k2 = k then (k, v) :: tl else (k2, v2) :: insertAssoc tl k v

/-! ## The template compiler `Parser::parse_format` -/

/-- The scan state of `parse_format` (its local variables). -/
structure PFSt where
  inField : Bool
  inType : Bool
  currentField : String
  currentType : String
  pattern : String
  braceCount : Int
  groupCount : Nat
  fieldMap : List (String × Nat)
  fieldTypes : List (String × String)
deriving Repr

def pfInit : PFSt := ⟨false, false, "", "", "", 0, 0, [], []⟩

/-- Rust `str::replace` for a single-character pattern: every occurrence of
`t` becomes `repl`. -/
def replaceChar (s : List Char) (t : Char) (repl : List Char) : List Char :=
  s.flatMap (fun c => if c = t then repl else [c])

/-- `current_field.replace(".", "__").replace("[", "__").replace("]", "")`. -/
def normalizeFieldName (s : String) : String :=
  String.mk (replaceChar (replaceChar (replaceChar s.toList '.' ['_', '_']) '[' ['_', '_']) ']' [])

/-- The body of the `'}'` (close-field) arm of `parse_format`'s match. -/
def pfClose (tcs : List (String × Conv)) (st : PFSt) : Except ParseError PFSt :=
  let st : PFSt :=
    { st with inField := false, inType := false, groupCount := st.groupCount + 1,
              braceCount := st.braceCount - 1 }
  let tpRes : Except ParseError String :=
    if st.currentType ≠ "" then
      match lookupAssoc tcs st.currentType with
      | some conv =>
        match conv.getPattern with
        | some tp => .ok tp
        | none => .ok "[^\\s]+"
      | none => .error .InvalidFormat
    else .ok "[^\\s]+"
  match tpRes with
  | .error e => .error e
  | .ok tp =>
    let fieldName :=
      if st.currentField = "" then toString (st.groupCount - 1)
      else normalizeFieldName st.currentField
    let st := { st with fieldMap := insertAssoc st.fieldMap fieldName st.groupCount }
    let st :=
      if st.currentType ≠ "" then
        { st with fieldTypes := insertAssoc st.fieldTypes fieldName st.currentType }
      else st
    .ok { st with pattern := st.pattern ++ "(" ++ tp ++ ")" }

/-- The `while let Some(c) = chars.next()` loop of `parse_format`, with the
one-character `peek` lookahead made explicit in the patterns. -/
def pfLoop (tcs : List (String × Conv)) : List Char → PFSt → Except ParseError PFSt
  | [], st => .ok st
  | '\x7b' :: '\x7b' :: tl, st => pfLoop tcs tl { st with pattern := st.pattern ++ "\\\x7b" }
  | '\x7b' :: tl, st =>
    if st.inField then .error .InvalidFormat
    else
      pfLoop tcs tl
        { st with inField := true, inType := false, currentField := "", currentType := "",
                  braceCount := st.braceCount + 1 }
  | '\x7d' :: '\x7d' :: tl, st => pfLoop tcs tl { st with pattern := st.pattern ++ "\\\x7d" }
  | '\x7d' :: tl, st =>
    if st.inField then
      match pfClose tcs st with
      | .error e => .error e
      | .ok st2 => pfLoop tcs tl st2
    else .error .InvalidFormat
  | ':' :: tl, st =>
    if st.inField then pfLoop tcs tl { st with inType := true }
    else pfLoop tcs tl { st with pattern := st.pattern.push ':' }
  | c :: tl, st =>
    if st.inField then
      if st.inType then pfLoop tcs tl { st with currentType := st.currentType.push c }
      else pfLoop tcs tl { st with currentField := st.currentField.push c }
    else pfLoop tcs tl { st with pattern := st.pattern.push c }

/-- `Parser::parse_format`: the anchored pattern, the search pattern and the
two field tables, or `InvalidFormat`. -/
def parseFormat (format : String) (tcs : List (String × Conv)) :
    Except ParseError (String × String × List (String × Nat) × List (String × String)) :=
  match pfLoop tcs format.toList pfInit with
  | .error e => .error e
  | .ok st =>
    if st.braceCount ≠ 0 ∨ st.inField then .error .InvalidFormat
    else .ok ("^" ++ st.pattern ++ "$", st.pattern, st.fieldMap, st.fieldTypes)

/-! ## The matcher -/

/-- Mirrors `struct Parser`.  `ci` is the `case_insensitive` flag handed to
`RegexBuilder` (the negation of the constructor's `case_sensitive`); in the
source it lives inside the compiled regexes. -/
structure Parser where
  pattern : RE
  search_pattern : RE
  field_map : List (String × Nat)
  field_types : List (String × String)
  type_converters : List (String × Conv)
  ci : Bool
deriving DecidableEq, Repr, Inhabited

/-- `Parser::new`: compile with the default registry (`Parser::new` rebuilds
the default converters and delegates to `new_with_types` with no extras). -/
def Parser.new (format : String) (case_sensitive : Bool) : Except ParseError Parser :=
  match parseFormat format defaultTypes with
  | .error e => .error e
  | .ok out =>
    match compileRegex out.1, compileRegex out.2.1 with
    | some re1, some re2 => .ok ⟨re1, re2, out.2.2.1, out.2.2.2, defaultTypes, !case_sensitive⟩
    | _, _ => .error .InvalidFormat

/-- Mirrors `struct ParseResult` (`converted` is `Vec<Box<dyn Any>>`,
modelled as a list of tagged values). -/
structure ParseResult where
  fixed : List String
  named : List (String × String)
  spans : List (Nat × Nat)
  converted : List RVal
deriving DecidableEq, Repr

/-- `ParseResult::get::<T>(index)` up to the `Any` downcast: the stored value
at `index`, if any (the tag mismatch case of `downcast_ref` is not needed by
the claims). -/
def ParseResult.get (r : ParseResult) (index : Nat) : Option RVal :=
  r.converted.get? index

/-- `Parser::process_captures`, with the `HashMap` iteration order of
`self.field_map` made explicit: `iter` is the order in which the two
`for (field_name, &group_idx) in &self.field_map` loops visit the entries
(an arbitrary permutation of the map's contents in the source). -/
def processCapturesWith (p : Parser) (iter : List (String × Nat)) (caps : CapsCtx) :
    Except ParseError ParseResult :=
  let n := p.field_map.length
  let first :=
    iter.foldl
      (fun (acc : List String × List (String × String) × List (Nat × Nat)) e =>
        match caps.get e.2 with
        | some v => (acc.1.set (e.2 - 1) v.1, insertAssoc acc.2.1 e.1 v.1,
            acc.2.2 ++ [(v.2.1, v.2.2)])
        | none => acc)
      (List.replicate n "", [], [])
  let fixed := first.1
  let named := first.2.1
  let spans := first.2.2
  let conv : Except ParseError (List RVal) :=
    (List.range n).foldlM
      (fun acc i =>
        iter.foldlM
          (fun acc2 e =>
            if e.2 - 1 = i then
              match lookupAssoc p.field_types e.1 with
              | some typeName =>
                match lookupAssoc p.type_converters typeName with
                | some cnv =>
                  match cnv.convert (fixed.getD i "") with
                  | .ok v => .ok (acc2 ++ [v])
                  | .error er => .error er
                | none => .ok acc2
              | none => .ok acc2
            else .ok acc2)
          acc)
      []
  match conv with
  | .error e => .error e
  | .ok converted => .ok ⟨fixed, named, spans, converted⟩

/-- `Parser::parse` (the `HashMap` iteration order instantiated to insertion
order; every output except `spans` is independent of it). -/
def Parser.parse (p : Parser) (text : String) : Option ParseResult :=
  match reCaptures p.ci p.pattern text with
  | none => none
  | some caps => (processCapturesWith p p.field_map caps).toOption

/-- `Parser::search`. -/
def Parser.search (p : Parser) (text : String) : Option ParseResult :=
  match reCaptures p.ci p.search_pattern text with
  | none => none
  | some caps => (processCapturesWith p p.field_map caps).toOption

/-- `collect::<Result<Vec<_>, _>>()`: the list of values if every element is
`Ok`, else the first `Err`. -/
def collectResults : List (Except ParseError ParseResult) → Except ParseError (List ParseResult)
  | [] => .ok []
  | .error e :: _ => .error e
  | .ok r :: tl =>
    match collectResults tl with
    | .error e => .error e
    | .ok rs => .ok (r :: rs)

/-- `Parser::findall`: `captures_iter(...).map(process_captures).collect::<
Result<Vec<_>, _>>().unwrap_or_default()`. -/
def Parser.findall (p : Parser) (text : String) : List ParseResult :=
  match collectResults
      ((capturesList p.ci p.search_pattern text).map (processCapturesWith p p.field_map)) with
  | .ok l => l
  | .error _ => []

/-- The free function `parse` (`Parser::new(format, false).ok()?.parse(text)`). -/
def parse (format text : String) : Option ParseResult :=
  match Parser.new format false with
  | .ok p => p.parse text
  | .error _ => none

/-- The free function `search`. -/
def search (format text : String) : Option ParseResult :=
  match Parser.new format false with
  | .ok p => p.search text
  | .error _ => none

/-- The free function `findall`
(`Parser::new(format, false).ok().map(|p| p.findall(text)).unwrap_or_default()`). -/
def findall (format text : String) : List ParseResult :=
  match Parser.new format false with
  | .ok p => p.findall text
  | .error _ => []

/-! ## Spec-side definitions

These are written from the specification's words, not from the source, and
are only compared against the source's behaviour. -/

/-- Modelled from the spec (§8): reconstruct the input by copying the
template's literal text verbatim, substituting each field's raw captured
substring at its position, and rendering `\x7b\x7b` / `\x7d\x7d` as single literal
braces. -/
def reconstructAux : List Char → List String → Bool → Option (List Char)
  | [], raws, inF => if inF = false ∧ raws = [] then some [] else none
  | '\x7b' :: '\x7b' :: tl, raws, false =>
    (reconstructAux tl raws false).map (fun r => '\x7b' :: r)
  | '\x7d' :: '\x7d' :: tl, raws, false =>
    (reconstructAux tl raws false).map (fun r => '\x7d' :: r)
  | '\x7b' :: tl, raws, false => reconstructAux tl raws true
  | '\x7d' :: tl, raw :: raws, true =>
    (reconstructAux tl raws false).map (fun r => raw.toList ++ r)
  | '\x7d' :: _, [], true => none
  | _ :: tl, raws, true => reconstructAux tl raws true
  | c :: tl, raws, false => (reconstructAux tl raws false).map (fun r => c :: r)

def reconstruct (format : String) (raws : List String) : Option String :=
  (reconstructAux format.toList raws false).map (fun l => String.mk l)

/-- The spec's name normalization (§4.1): `.` and `[` replaced by `__`, a
single *trailing* `]` dropped. -/
def specNormalize (s : String) : String :=
  let t := replaceChar (replaceChar s.toList '.' ['_', '_']) '[' ['_', '_']
  String.mk (if t.getLast? = some ']' then t.dropLast else t)

/-- The well-formedness condition the claims describe for templates: scanning
left to right, `\x7b\x7b`/`\x7d\x7d` are literals, no unescaped `\x7b` inside a field, no
`\x7d` outside a field, no field left open at the end, and every field's type
tag (the part after `:`, when nonempty) present in the registry.  Written
independently of `parse_format`; only brace structure and type tags are
tracked. -/
def wellBraced (tcs : List (String × Conv)) : List Char → Bool → Bool → String → Bool
  | [], inF, _, _ => !inF
  | '\x7b' :: '\x7b' :: tl, inF, inT, ct => wellBraced tcs tl inF inT ct
  | '\x7b' :: tl, inF, _, _ => if inF then false else wellBraced tcs tl true false ""
  | '\x7d' :: '\x7d' :: tl, inF, inT, ct => wellBraced tcs tl inF inT ct
  | '\x7d' :: tl, inF, _, ct =>
    if inF then (ct = "" || (lookupAssoc tcs ct).isSome) && wellBraced tcs tl false false ct
    else false
  | ':' :: tl, inF, inT, ct =>
    if inF then wellBraced tcs tl inF true ct else wellBraced tcs tl inF inT ct
  | c :: tl, inF, inT, ct =>
    if inF && inT then wellBraced tcs tl inF inT (ct.push c) else wellBraced tcs tl inF inT ct

/-! ## Claim theorems -/

/-- C3: `parse_format` does **not** regex-escape literal characters and does
**not** wrap `, = + -` in optional-whitespace matchers: the pattern emitted
for `\x7ba:w\x7d,\x7bb:w\x7d` is `^(\w+),(\w+)$` with a bare comma, a literal dot
stays an unescaped regex dot, and consequently `"hello,world"` matches while
`"hello, world"` does not — though the repository's own test
`test_optional_whitespace` expects both to match. -/
theorem C3_no_escaping_no_whitespace_wrapping :
    parseFormat "\x7ba:w\x7d,\x7bb:w\x7d" defaultTypes =
      .ok ("^(\\w+),(\\w+)$", "(\\w+),(\\w+)", [("a", 1), ("b", 2)], [("a", "w"), ("b", "w")]) ∧
    parseFormat "a.b" defaultTypes = .ok ("^a.b$", "a.b", [], []) ∧
    (Parser.new "\x7ba:w\x7d,\x7bb:w\x7d" true).toOption.map
        (fun p => ((p.parse "hello,world").isSome, (p.parse "hello, world").isSome)) =
      some (true, false) := by
  refine ⟨by decide, by decide, by decide⟩

/-- C5: a successful structural match on an untyped field stores **nothing**
in `converted` (`process_captures` only pushes values for fields present in
`field_types`), so `get 0` is `none` where the repository's tests expect the
raw string; with a mix of untyped and typed fields the converted values
shift down and positional lookup no longer addresses field `i`. -/
theorem C5_untyped_field_has_no_converted_entry :
    (parse "Bring me a \x7b\x7d" "Bring me a shrubbery").map
        (fun r => (r.fixed, r.converted, r.get 0)) =
      some (["shrubbery"], [], none) ∧
    (parse "\x7b\x7d \x7b:d\x7d" "a 5").map (fun r => (r.fixed, r.converted)) =
      some (["a", "5"], [RVal.int 5]) := by
  refine ⟨by decide, by decide⟩

/-- C10: the one-call convenience functions swallow compile errors: whenever
`Parser::new` fails, `parse` and `search` return `none` and `findall`
returns `[]`, exactly as they do for a compiled template that does not
match. -/
theorem C10_free_functions_none_on_compile_error (format text : String) (e : ParseError)
    (h : Parser.new format false = .error e) :
    parse format text = none ∧ search format text = none ∧ findall format text = [] := by
  unfold parse search findall
  rw [h]
  exact ⟨rfl, rfl, rfl⟩

/-- Witness for C10 at the malformed template `a\x7bb`. -/
theorem C10_witness :
    parse "a\x7bb" "hello" = none ∧ search "a\x7bb" "hello" = none ∧
      findall "a\x7bb" "hello" = [] :=
  C10_free_functions_none_on_compile_error "a\x7bb" "hello" .InvalidFormat (by decide)

/-- C4: if the structural match succeeds but `process_captures` fails (a
field's conversion failed), `parse` and `search` return `none` — no partial
`ParseResult` is ever handed to the caller. -/
theorem C4_conversion_failure_aborts_whole_call (p : Parser) (text : String) :
    (∀ cc, reCaptures p.ci p.pattern text = some cc →
      (processCapturesWith p p.field_map cc).toOption = none → p.parse text = none) ∧
    (∀ cc, reCaptures p.ci p.search_pattern text = some cc →
      (processCapturesWith p p.field_map cc).toOption = none → p.search text = none) := by
  constructor <;> intro cc hcap hfail <;>
    simp only [Parser.parse, Parser.search, hcap] <;> exact hfail

/-- Witness for C4: `\x7b:d\x7d` matches a 20-digit number structurally, the
`i64` conversion overflows, and both calls return `none`. -/
theorem C4_witness :
    ((Parser.new "\x7b:d\x7d" false).toOption.getD default).parse "99999999999999999999" = none ∧
    ((Parser.new "\x7b:d\x7d" false).toOption.getD default).search "99999999999999999999" = none :=
  ⟨(C4_conversion_failure_aborts_whole_call _ _).1
      ⟨"99999999999999999999".toList, 0, 20, [(1, 20, 0)]⟩ (by decide) (by decide),
   (C4_conversion_failure_aborts_whole_call _ _).2
      ⟨"99999999999999999999".toList, 0, 20, [(1, 20, 0)]⟩ (by decide) (by decide)⟩

theorem collectResults_ok_of_all (l : List (Except ParseError ParseResult))
    (h : ∀ x ∈ l, x.toOption.isSome) :
    collectResults l = .ok (l.filterMap Except.toOption) := by
  induction l with
  | nil => rfl
  | cons a tl ih =>
    cases a with
    | error e => simpa [Except.toOption] using h _ (List.mem_cons_self _ _)
    | ok r =>
      have := ih (fun x hx => h x (List.mem_cons_of_mem _ hx))
      simp [collectResults, this, Except.toOption, List.filterMap_cons]

theorem collectResults_error_of_mem (l : List (Except ParseError ParseResult))
    (x : Except ParseError ParseResult) (hx : x ∈ l) (he : x.toOption = none) :
    ∃ e, collectResults l = .error e := by
  induction l with
  | nil => cases hx
  | cons a tl ih =>
    rcases List.mem_cons.mp hx with h | h
    · subst h
      cases x with
      | error e => exact ⟨e, rfl⟩
      | ok r => simp [Except.toOption] at he
    · cases a with
      | error e => exact ⟨e, rfl⟩
      | ok r =>
        obtain ⟨e, hee⟩ := ih h
        exact ⟨e, by simp [collectResults, hee]⟩

/-- C1 (amended): `findall` is all-or-nothing, not per-match lenient.  When
every candidate match's conversion succeeds, the output is the full list of
converted matches in order; when any single candidate's conversion fails,
the *entire* result is the empty vector — successful matches are discarded
along with the failing one. -/
theorem C1_findall_all_or_nothing (p : Parser) (text : String) :
    ((∀ cc ∈ capturesList p.ci p.search_pattern text,
        (processCapturesWith p p.field_map cc).toOption.isSome) →
      p.findall text = (capturesList p.ci p.search_pattern text).filterMap
        (fun cc => (processCapturesWith p p.field_map cc).toOption)) ∧
    (∀ cc ∈ capturesList p.ci p.search_pattern text,
      (processCapturesWith p p.field_map cc).toOption = none → p.findall text = []) := by
  constructor
  · intro h
    unfold Parser.findall
    rw [collectResults_ok_of_all _ (by
      intro x hx
      obtain ⟨cc, hcc, rfl⟩ := List.mem_map.mp hx
      exact h cc hcc)]
    simp only [List.filterMap_map]
    rfl
  · intro cc hmem hnone
    unfold Parser.findall
    obtain ⟨e, he⟩ :=
      collectResults_error_of_mem _ (processCapturesWith p p.field_map cc)
        (List.mem_map_of_mem _ hmem) hnone
    rw [he]

/-- C1: counterexample.  On template `\x7b:d\x7d` against
`"5 99999999999999999999"` there are two structural matches; the first
(`"5"`) converts successfully, the second overflows `i64` and fails.  The
claim says only the failing match is removed, but `findall` returns the
empty vector, discarding the successful match too. -/
theorem C1_counterexample :
    findall "\x7b:d\x7d" "5 99999999999999999999" = [] ∧
    (Parser.new "\x7b:d\x7d" false).toOption.map (fun p =>
        (capturesList p.ci p.search_pattern "5 99999999999999999999").map
          (fun cc => (processCapturesWith p p.field_map cc).toOption.map
            (fun r => r.converted))) =
      some [some [RVal.int 5], none] := by
  refine ⟨by decide, by decide⟩

/-- Witness for C1 at the counterexample's input: one failing candidate
match empties the whole `findall` result. -/
theorem C1_witness :
    ((Parser.new "\x7b:d\x7d" false).toOption.getD default).findall
      "5 99999999999999999999" = [] :=
  (C1_findall_all_or_nothing _ _).2
    ⟨"5 99999999999999999999".toList, 2, 22, [(1, 20, 0)]⟩ (by decide) (by decide)

theorem foldFirst_spans (cc : CapsCtx) (iter : List (String × Nat))
    (acc : List String × List (String × String) × List (Nat × Nat)) :
    (iter.foldl
      (fun (acc : List String × List (String × String) × List (Nat × Nat)) e =>
        match cc.get e.2 with
        | some v => (acc.1.set (e.2 - 1) v.1, insertAssoc acc.2.1 e.1 v.1,
            acc.2.2 ++ [(v.2.1, v.2.2)])
        | none => acc)
      acc).2.2 =
      acc.2.2 ++ iter.filterMap (fun e => (cc.get e.2).map (fun v => (v.2.1, v.2.2))) := by
  induction iter generalizing acc with
  | nil => simp
  | cons e tl ih =>
    cases hv : cc.get e.2 with
    | none => simp [List.foldl_cons, hv, ih, List.filterMap_cons]
    | some v => simp [List.foldl_cons, hv, ih, List.filterMap_cons]

theorem processCapturesWith_spans (p : Parser) (iter : List (String × Nat)) (cc : CapsCtx)
    (r : ParseResult) (hok : processCapturesWith p iter cc = .ok r) :
    r.spans = iter.filterMap (fun e => (cc.get e.2).map (fun v => (v.2.1, v.2.2))) := by
  unfold processCapturesWith at hok
  dsimp only at hok
  split at hok
  · exact absurd hok (by simp)
  · cases hok
    simpa using foldFirst_spans cc iter (List.replicate p.field_map.length "", [], [])

/-- C9 (amended): the `spans` sequence is produced in the `HashMap` iteration
order of `field_map` — an arbitrary permutation of the fields, not
necessarily declaration order.  For every admissible iteration order it is a
permutation of the declaration-order span sequence, with one span per
participating field. -/
theorem C9_spans_permutation (p : Parser) (iter : List (String × Nat)) (cc : CapsCtx)
    (r : ParseResult) (hperm : iter.Perm p.field_map)
    (hok : processCapturesWith p iter cc = .ok r) :
    r.spans = iter.filterMap (fun e => (cc.get e.2).map (fun v => (v.2.1, v.2.2))) ∧
    r.spans.Perm
      (p.field_map.filterMap (fun e => (cc.get e.2).map (fun v => (v.2.1, v.2.2)))) := by
  have h := processCapturesWith_spans p iter cc r hok
  exact ⟨h, h ▸ hperm.filterMap _⟩

/-- C9: counterexample.  For the template `\x7ba\x7d \x7bbb\x7d` on `"x yy"`, the
admissible iteration order that visits `bb` before `a` (the reverse of
insertion order — the source iterates a `HashMap`, whose order is arbitrary)
produces `spans = [(2,4), (0,1)]`, not the declaration-order `[(0,1), (2,4)]`. -/
theorem C9_counterexample :
    (Parser.new "\x7ba\x7d \x7bbb\x7d" true).toOption.map (fun p =>
      (reCaptures p.ci p.pattern "x yy").map (fun cc =>
        ((processCapturesWith p p.field_map.reverse cc).toOption.map (fun r => r.spans),
         (processCapturesWith p p.field_map cc).toOption.map (fun r => r.spans)))) =
      some (some (some [(2, 4), (0, 1)], some [(0, 1), (2, 4)])) ∧
    [(2, 4), (0, 1)] ≠ [(0, 1), (2, 4)] := by
  refine ⟨by decide, by decide⟩

/-- Witness for C9 at the counterexample's matcher and text, with the
reversed iteration order. -/
theorem C9_witness :
    (((Parser.new "\x7ba\x7d \x7bbb\x7d" true).toOption.getD default).field_map.reverse.filterMap
        (fun e => ((⟨"x yy".toList, 0, 4, [(2, 2, 0), (1, 4, 3)]⟩ : CapsCtx).get e.2).map
          (fun v => (v.2.1, v.2.2))) = [(2, 4), (0, 1)]) ∧
    List.Perm [(2, 4), (0, 1)]
      (((Parser.new "\x7ba\x7d \x7bbb\x7d" true).toOption.getD default).field_map.filterMap
        (fun e => ((⟨"x yy".toList, 0, 4, [(2, 2, 0), (1, 4, 3)]⟩ : CapsCtx).get e.2).map
          (fun v => (v.2.1, v.2.2)))) := by
  have h := C9_spans_permutation ((Parser.new "\x7ba\x7d \x7bbb\x7d" true).toOption.getD default)
    (((Parser.new "\x7ba\x7d \x7bbb\x7d" true).toOption.getD default).field_map.reverse)
    ⟨"x yy".toList, 0, 4, [(2, 2, 0), (1, 4, 3)]⟩
    ⟨["x", "yy"], [("bb", "yy"), ("a", "x")], [(2, 4), (0, 1)], []⟩
    (List.reverse_perm _) (by decide)
  exact ⟨h.1.symm, h.2⟩

theorem findSome?_of_firstD {α β : Type} (d : α) (l : List α) (f : α → Option β) (i : Nat)
    (v : β) (hi : i < l.length)
    (hbefore : ∀ j, j < i → f (l.getD j d) = none)
    (hhit : f (l.getD i d) = some v) :
    l.findSome? f = some v := by
  induction l generalizing i with
  | nil => simp at hi
  | cons a tl ih =>
    cases i with
    | zero =>
      simp only [List.getD_cons_zero] at hhit
      simp [List.findSome?_cons, hhit]
    | succ k =>
      have ha : f a = none := by simpa using hbefore 0 (Nat.succ_pos _)
      simp only [List.findSome?_cons, ha]
      exact ih k (by simpa using hi)
        (fun j hj => by simpa using hbefore (j + 1) (by omega))
        (by simpa using hhit)

theorem dtConvert_eq (ft : String) (fmts : List String) (s : String)
    (hf : dtFormats ft = some fmts) :
    dtConvert ft s =
      (match fmts.findSome? (fun f => dtStage1 f s) with
       | some v => .ok v
       | none =>
         match fmts.findSome? (fun f => (dateParse f s).map RVal.date) with
         | some v => .ok v
         | none =>
           match fmts.findSome? (fun f => (timeParse f s).map RVal.time) with
           | some v => .ok v
           | none => .error .TypeConversionFailed) := by
  unfold dtConvert
  rw [hf]

/-- C7: date/time conversion resolution.  The three concrete anchors: the
day-first input and the two 12-hour-clock cases; and, for every format
family and input, the staged resolution order: the ordered candidates are
tried first as a full date-and-time (first success wins), then — only when
all of those fail — as a date, then as a time, and `TypeConversionFailed`
arises exactly when every candidate fails under all three interpretations. -/
theorem C7_datetime_conversion :
    dtConvert "tg" "27/12/2024 19:57:55" =
      .ok (.dateTime ⟨⟨2024, 12, 27⟩, ⟨19, 57, 55, 0⟩⟩) ∧
    dtConvert "tg" "12:15 PM" = .ok (.time ⟨12, 15, 0, 0⟩) ∧
    dtConvert "tg" "12:15 AM" = .ok (.time ⟨0, 15, 0, 0⟩) ∧
    (∀ ft fmts s, dtFormats ft = some fmts →
      (dtConvert ft s = .error .TypeConversionFailed ↔
        (∀ f ∈ fmts, dtStage1 f s = none) ∧ (∀ f ∈ fmts, dateParse f s = none) ∧
          (∀ f ∈ fmts, timeParse f s = none)) ∧
      (∀ i v, i < fmts.length →
        (∀ j, j < i → dtStage1 (fmts.getD j "") s = none) →
        dtStage1 (fmts.getD i "") s = some v → dtConvert ft s = .ok v) ∧
      ((∀ f ∈ fmts, dtStage1 f s = none) →
        ∀ i v, i < fmts.length →
          (∀ j, j < i → dateParse (fmts.getD j "") s = none) →
          dateParse (fmts.getD i "") s = some v → dtConvert ft s = .ok (.date v)) ∧
      ((∀ f ∈ fmts, dtStage1 f s = none) → (∀ f ∈ fmts, dateParse f s = none) →
        ∀ i v, i < fmts.length →
          (∀ j, j < i → timeParse (fmts.getD j "") s = none) →
          timeParse (fmts.getD i "") s = some v → dtConvert ft s = .ok (.time v))) := by
  refine ⟨by decide, by decide, by decide, ?_⟩
  intro ft fmts s hf
  have he := dtConvert_eq ft fmts s hf
  refine ⟨?_, ?_, ?_, ?_⟩
  · rw [he]
    constructor
    · intro herr
      cases h1 : fmts.findSome? (fun f => dtStage1 f s) with
      | some v => rw [h1] at herr; exact absurd herr (by simp)
      | none =>
        rw [h1] at herr
        cases h2 : fmts.findSome? (fun f => (dateParse f s).map RVal.date) with
        | some v => rw [h2] at herr; exact absurd herr (by simp)
        | none =>
          rw [h2] at herr
          cases h3 : fmts.findSome? (fun f => (timeParse f s).map RVal.time) with
          | some v => rw [h3] at herr; exact absurd herr (by simp)
          | none =>
            rw [List.findSome?_eq_none_iff] at h1 h2 h3
            refine ⟨h1, fun f hfm => ?_, fun f hfm => ?_⟩
            · simpa using h2 f hfm
            · simpa using h3 f hfm
    · intro hall
      rw [List.findSome?_eq_none_iff.mpr hall.1,
        List.findSome?_eq_none_iff.mpr (fun f hfm => by simp [hall.2.1 f hfm]),
        List.findSome?_eq_none_iff.mpr (fun f hfm => by simp [hall.2.2 f hfm])]
  · intro i v hi hb hh
    rw [he, findSome?_of_firstD "" fmts _ i v hi hb hh]
  · intro hall i v hi hb hh
    rw [he, List.findSome?_eq_none_iff.mpr hall,
      findSome?_of_firstD "" fmts _ i (RVal.date v) hi
        (fun j hj => by rw [Option.map_eq_none']; exact hb j hj) (by rw [hh]; rfl)]
  · intro hall hdate i v hi hb hh
    rw [he, List.findSome?_eq_none_iff.mpr hall,
      List.findSome?_eq_none_iff.mpr (fun f hfm => by simp [hdate f hfm]),
      findSome?_of_firstD "" fmts _ i (RVal.time v) hi
        (fun j hj => by rw [Option.map_eq_none']; exact hb j hj) (by rw [hh]; rfl)]

/-- Witness for C7: `"19:57"` fails every `tg` candidate as a date-and-time
and as a date, and the first time-only success is `%H:%M` at index 11. -/
theorem C7_witness : dtConvert "tg" "19:57" = .ok (.time ⟨19, 57, 0, 0⟩) :=
  ((C7_datetime_conversion.2.2.2 "tg"
      ["%d/%m/%Y %H:%M:%S", "%d/%m/%Y %H:%M", "%d/%m/%Y %I:%M:%S %p", "%d/%m/%Y %I:%M %p",
       "%Y/%m/%d %H:%M:%S", "%Y/%m/%d %H:%M", "%Y/%m/%d %I:%M:%S %p", "%Y/%m/%d %I:%M %p",
       "%d/%m/%Y", "%Y/%m/%d",
       "%H:%M:%S", "%H:%M", "%I:%M:%S %p", "%I:%M %p"] "19:57" (by decide)).2.2.2)
    (by decide) (by decide) 11 ⟨19, 57, 0, 0⟩ (by decide) (by decide) (by decide)

def pfAccept (tcs : List (String × Conv)) (cs : List Char) (st : PFSt) : Bool :=
  match pfLoop tcs cs st with
  | .error _ => false
  | .ok st2 => st2.braceCount == 0 && !st2.inField

theorem pfClose_ok_fields (tcs : List (String × Conv)) (st st2 : PFSt)
    (h : pfClose tcs st = .ok st2) :
    st2.inField = false ∧ st2.inType = false ∧ st2.currentType = st.currentType ∧
      st2.braceCount = st.braceCount - 1 := by
  unfold pfClose at h
  dsimp only at h
  split at h
  · exact absurd h (by simp)
  · split at h <;> cases h <;> simp

theorem pfClose_isOk_iff (tcs : List (String × Conv)) (st : PFSt) :
    (∃ st2, pfClose tcs st = .ok st2) ↔
      (st.currentType = "" ∨ (lookupAssoc tcs st.currentType).isSome = true) := by
  unfold pfClose
  dsimp only
  by_cases hct : st.currentType = ""
  · simp [hct]
  · simp only [hct, if_neg, ne_eq, not_false_iff, if_pos]
    cases hl : lookupAssoc tcs st.currentType with
    | none => simp [hct, hl]
    | some conv => cases hgp : conv.getPattern <;> simp [hct, hl, hgp]

theorem pfClose_error_invalid (tcs : List (String × Conv)) (st : PFSt) (e : ParseError)
    (h : pfClose tcs st = .error e) : e = .InvalidFormat := by
  unfold pfClose at h
  dsimp only at h
  split at h
  · rename_i e2 heq
    cases h
    split at heq
    · split at heq
      · split at heq <;> simp_all
      · simp_all
    · simp_all
  · simp at h

theorem pfLoop_accept_eq (tcs : List (String × Conv)) (cs : List Char) (st : PFSt) :
    st.braceCount = (if st.inField then 1 else 0) →
    pfAccept tcs cs st = wellBraced tcs cs st.inField st.inType st.currentType := by
  induction cs, st using pfLoop.induct tcs <;> intro hb
  case case1 st =>
    obtain ⟨inF, inT, cf, ct, pat, bc, gc, fm, fts⟩ := st
    cases inF <;> simp_all [pfAccept, pfLoop, wellBraced]
  case case2 tl st ih =>
    simp only [pfAccept, pfLoop.eq_2, wellBraced.eq_2]
    exact ih hb
  case case3 tl st hne hf =>
    obtain ⟨inF, inT, cf, ct, pat, bc, gc, fm, fts⟩ := st
    replace hf : inF = true := hf
    subst hf
    simp [pfAccept, pfLoop.eq_3 tcs _ tl hne, wellBraced.eq_3 tcs _ _ _ tl hne]
  case case4 tl st hne hf ih =>
    obtain ⟨inF, inT, cf, ct, pat, bc, gc, fm, fts⟩ := st
    replace hf : inF = false := by simpa using hf
    subst hf
    replace hb : bc = 0 := hb
    subst hb
    simp only [pfAccept, pfLoop.eq_3 tcs _ tl hne, wellBraced.eq_3 tcs _ _ _ tl hne]
    simpa [pfAccept] using ih rfl
  case case5 tl st ih =>
    simp only [pfAccept, pfLoop.eq_4, wellBraced.eq_4]
    exact ih hb
  case case6 tl st hne hf e herr =>
    obtain ⟨inF, inT, cf, ct, pat, bc, gc, fm, fts⟩ := st
    replace hf : inF = true := hf
    subst hf
    have hnot : ¬(ct = "" ∨ (lookupAssoc tcs ct).isSome = true) := by
      intro hc
      obtain ⟨st2, hok⟩ :=
        (pfClose_isOk_iff tcs ⟨true, inT, cf, ct, pat, bc, gc, fm, fts⟩).mpr hc
      rw [hok] at herr
      cases herr
    push_neg at hnot
    simp [pfAccept, pfLoop.eq_5 tcs _ tl hne, wellBraced.eq_5 tcs _ _ _ tl hne, herr,
      hnot.1, hnot.2]
  case case7 tl st hne hf st2 hok ih =>
    obtain ⟨inF, inT, cf, ct, pat, bc, gc, fm, fts⟩ := st
    replace hf : inF = true := hf
    subst hf
    replace hb : bc = 1 := hb
    subst hb
    obtain ⟨h1, h2, h3, h4⟩ := pfClose_ok_fields tcs _ st2 hok
    have hcond : ct = "" ∨ (lookupAssoc tcs ct).isSome = true :=
      (pfClose_isOk_iff tcs _).mp ⟨st2, hok⟩
    have hb2 : st2.braceCount = (if st2.inField = true then 1 else 0) := by
      rw [h1, h4]
      simp
    have hih := ih hb2
    rw [h1, h2, h3] at hih
    simp only [pfAccept, pfLoop.eq_5 tcs _ tl hne, wellBraced.eq_5 tcs _ _ _ tl hne, hok]
    simp only [pfAccept] at hih
    rcases hcond with hc | hc <;> simp [hih, hc]
  case case8 tl st hne hf =>
    obtain ⟨inF, inT, cf, ct, pat, bc, gc, fm, fts⟩ := st
    replace hf : inF = false := by simpa using hf
    subst hf
    simp [pfAccept, pfLoop.eq_5 tcs _ tl hne, wellBraced.eq_5 tcs _ _ _ tl hne]
  case case9 tl st hf ih =>
    obtain ⟨inF, inT, cf, ct, pat, bc, gc, fm, fts⟩ := st
    replace hf : inF = true := hf
    subst hf
    simp only [pfAccept, pfLoop.eq_6, wellBraced.eq_6, if_pos]
    simpa [pfAccept] using ih hb
  case case10 tl st hf ih =>
    obtain ⟨inF, inT, cf, ct, pat, bc, gc, fm, fts⟩ := st
    replace hf : inF = false := by simpa using hf
    subst hf
    simp only [pfAccept, pfLoop.eq_6, wellBraced.eq_6]
    simpa [pfAccept] using ih hb
  case case11 c tl st h1 h2 h3 h4 h5 hf ht ih =>
    obtain ⟨inF, inT, cf, ct, pat, bc, gc, fm, fts⟩ := st
    replace hf : inF = true := hf
    replace ht : inT = true := ht
    subst hf
    subst ht
    simp only [pfAccept, pfLoop.eq_7 tcs _ c tl h1 h2 h3 h4 h5,
      wellBraced.eq_7 tcs _ _ _ c tl h1 h2 h3 h4 h5]
    simpa [pfAccept] using ih hb
  case case12 c tl st h1 h2 h3 h4 h5 hf ht ih =>
    obtain ⟨inF, inT, cf, ct, pat, bc, gc, fm, fts⟩ := st
    replace hf : inF = true := hf
    replace ht : inT = false := by simpa using ht
    subst hf
    subst ht
    simp only [pfAccept, pfLoop.eq_7 tcs _ c tl h1 h2 h3 h4 h5,
      wellBraced.eq_7 tcs _ _ _ c tl h1 h2 h3 h4 h5]
    simpa [pfAccept] using ih hb
  case case13 c tl st h1 h2 h3 h4 h5 hf ih =>
    obtain ⟨inF, inT, cf, ct, pat, bc, gc, fm, fts⟩ := st
    replace hf : inF = false := by simpa using hf
    subst hf
    simp only [pfAccept, pfLoop.eq_7 tcs _ c tl h1 h2 h3 h4 h5,
      wellBraced.eq_7 tcs _ _ _ c tl h1 h2 h3 h4 h5]
    simpa [pfAccept] using ih hb
theorem pfLoop_error_invalid (tcs : List (String × Conv)) (cs : List Char) (st : PFSt)
    (e : ParseError) : pfLoop tcs cs st = .error e → e = .InvalidFormat := by
  induction cs, st using pfLoop.induct tcs <;> intro h
  case case1 st =>
    simp [pfLoop] at h
  case case2 tl st ih =>
    rw [pfLoop.eq_2] at h
    exact ih h
  case case3 tl st hne hf =>
    rw [pfLoop.eq_3 tcs st tl hne, if_pos hf] at h
    exact (Except.error.inj h).symm
  case case4 tl st hne hf ih =>
    rw [pfLoop.eq_3 tcs st tl hne, if_neg hf] at h
    exact ih h
  case case5 tl st ih =>
    rw [pfLoop.eq_4] at h
    exact ih h
  case case6 tl st hne hf e2 herr =>
    rw [pfLoop.eq_5 tcs st tl hne, if_pos hf, herr] at h
    rw [← Except.error.inj h]
    exact pfClose_error_invalid tcs st e2 herr
  case case7 tl st hne hf st2 hok ih =>
    rw [pfLoop.eq_5 tcs st tl hne, if_pos hf, hok] at h
    exact ih h
  case case8 tl st hne hf =>
    rw [pfLoop.eq_5 tcs st tl hne, if_neg hf] at h
    exact (Except.error.inj h).symm
  case case9 tl st hf ih =>
    rw [pfLoop.eq_6, if_pos hf] at h
    exact ih h
  case case10 tl st hf ih =>
    rw [pfLoop.eq_6, if_neg hf] at h
    exact ih h
  case case11 c tl st h1 h2 h3 h4 h5 hf ht ih =>
    rw [pfLoop.eq_7 tcs st c tl h1 h2 h3 h4 h5, if_pos hf, if_pos ht] at h
    exact ih h
  case case12 c tl st h1 h2 h3 h4 h5 hf ht ih =>
    rw [pfLoop.eq_7 tcs st c tl h1 h2 h3 h4 h5, if_pos hf, if_neg ht] at h
    exact ih h
  case case13 c tl st h1 h2 h3 h4 h5 hf ih =>
    rw [pfLoop.eq_7 tcs st c tl h1 h2 h3 h4 h5, if_neg hf] at h
    exact ih h

theorem parseFormat_cases (format : String) (tcs : List (String × Conv)) :
    (∃ e, parseFormat format tcs = .error e) ↔
      wellBraced tcs format.toList false false "" = false := by
  have hacc : pfAccept tcs format.toList pfInit =
      wellBraced tcs format.toList false false "" :=
    pfLoop_accept_eq tcs format.toList pfInit rfl
  unfold pfAccept at hacc
  cases hpf : pfLoop tcs format.toList pfInit with
  | error e =>
    rw [hpf] at hacc
    have hpe : parseFormat format tcs = .error e := by
      unfold parseFormat
      rw [hpf]
    exact ⟨fun _ => hacc.symm, fun _ => ⟨e, hpe⟩⟩
  | ok st2 =>
    rw [hpf] at hacc
    by_cases hc : st2.braceCount ≠ 0 ∨ st2.inField = true
    · have hpe : parseFormat format tcs = .error .InvalidFormat := by
        unfold parseFormat
        rw [hpf]
        dsimp only
        rw [if_pos hc]
      have hwb : wellBraced tcs format.toList false false "" = false := by
        rw [← hacc]
        rcases hc with hc | hc
        · simp [hc]
        · simp [hc]
      exact ⟨fun _ => hwb, fun _ => ⟨_, hpe⟩⟩
    · have hpe : parseFormat format tcs =
          .ok ("^" ++ st2.pattern ++ "$", st2.pattern, st2.fieldMap, st2.fieldTypes) := by
        unfold parseFormat
        rw [hpf]
        dsimp only
        rw [if_neg hc]
      push_neg at hc
      have hwb : wellBraced tcs format.toList false false "" = true := by
        rw [← hacc]
        simp [hc.1, hc.2]
      constructor
      · rintro ⟨e, he⟩
        rw [hpe] at he
        cases he
      · intro hfalse
        rw [hwb] at hfalse
        cases hfalse

theorem parseFormat_error_invalid (format : String) (tcs : List (String × Conv))
    (e : ParseError) : parseFormat format tcs = .error e → e = .InvalidFormat := by
  unfold parseFormat
  cases hpf : pfLoop tcs format.toList pfInit with
  | error e2 =>
    intro h
    rw [← Except.error.inj h]
    exact pfLoop_error_invalid _ _ _ _ hpf
  | ok st2 =>
    dsimp only
    by_cases hc : st2.braceCount ≠ 0 ∨ st2.inField = true
    · rw [if_pos hc]
      intro h
      exact (Except.error.inj h).symm
    · rw [if_neg hc]
      intro h
      cases h

/-- C6 (amended): compilation fails — always with `InvalidFormat` — exactly
when the template violates the brace/type-tag discipline (`wellBraced`
false: a nested unescaped `\x7b` inside a field, a `\x7d` outside any field, an
unterminated field, or a type tag absent from the registry) **or** the
emitted pattern fails to compile as a regex (literal text that is invalid
regex syntax, e.g. an unbalanced parenthesis); `a\x7bb` and `a\x7db` both fail
with `InvalidFormat`. -/
theorem C6_compile_error_characterization :
    (∀ format cs,
      (∃ e, Parser.new format cs = .error e) ↔
        (wellBraced defaultTypes format.toList false false "" = false ∨
          ∃ out, parseFormat format defaultTypes = .ok out ∧
            (compileRegex out.1 = none ∨ compileRegex out.2.1 = none))) ∧
    (∀ format cs e, Parser.new format cs = .error e → e = .InvalidFormat) ∧
    Parser.new "a\x7bb" false = .error .InvalidFormat ∧
    Parser.new "a\x7db" false = .error .InvalidFormat := by
  refine ⟨?_, ?_, by decide, by decide⟩
  · intro format cs
    cases hpf : parseFormat format defaultTypes with
    | error e =>
      have hwb := (parseFormat_cases format defaultTypes).mp ⟨e, hpf⟩
      have hnew : Parser.new format cs = .error e := by
        unfold Parser.new
        rw [hpf]
      exact ⟨fun _ => Or.inl hwb, fun _ => ⟨e, hnew⟩⟩
    | ok out =>
      have hwb : wellBraced defaultTypes format.toList false false "" = true := by
        cases hw : wellBraced defaultTypes format.toList false false "" with
        | false =>
          obtain ⟨e, he⟩ := (parseFormat_cases format defaultTypes).mpr hw
          rw [hpf] at he
          cases he
        | true => rfl
      cases hc1 : compileRegex out.1 with
      | none =>
        have hnew : Parser.new format cs = .error .InvalidFormat := by
          unfold Parser.new
          rw [hpf]
          dsimp only
          rw [hc1]
        exact ⟨fun _ => Or.inr ⟨out, rfl, Or.inl hc1⟩, fun _ => ⟨_, hnew⟩⟩
      | some re1 =>
        cases hc2 : compileRegex out.2.1 with
        | none =>
          have hnew : Parser.new format cs = .error .InvalidFormat := by
            unfold Parser.new
            rw [hpf]
            dsimp only
            rw [hc1, hc2]
          exact ⟨fun _ => Or.inr ⟨out, rfl, Or.inr hc2⟩, fun _ => ⟨_, hnew⟩⟩
        | some re2 =>
          have hnew : Parser.new format cs =
              .ok ⟨re1, re2, out.2.2.1, out.2.2.2, defaultTypes, !cs⟩ := by
            unfold Parser.new
            rw [hpf]
            dsimp only
            rw [hc1, hc2]
          constructor
          · rintro ⟨e, he⟩
            rw [hnew] at he
            cases he
          · rintro (hfalse | ⟨out2, hout2, hcr⟩)
            · rw [hwb] at hfalse
              cases hfalse
            · have heq : out = out2 := Except.ok.inj hout2
              subst heq
              rcases hcr with hcr | hcr
              · rw [hc1] at hcr
                cases hcr
              · rw [hc2] at hcr
                cases hcr
  · intro format cs e
    cases hpf : parseFormat format defaultTypes with
    | error e2 =>
      intro h
      have hnew : Parser.new format cs = .error e2 := by
        unfold Parser.new
        rw [hpf]
      rw [hnew] at h
      rw [← Except.error.inj h]
      exact parseFormat_error_invalid _ _ _ hpf
    | ok out =>
      cases hc1 : compileRegex out.1 with
      | none =>
        intro h
        have hnew : Parser.new format cs = .error .InvalidFormat := by
          unfold Parser.new
          rw [hpf]
          dsimp only
          rw [hc1]
        rw [hnew] at h
        exact (Except.error.inj h).symm
      | some re1 =>
        cases hc2 : compileRegex out.2.1 with
        | none =>
          intro h
          have hnew : Parser.new format cs = .error .InvalidFormat := by
            unfold Parser.new
            rw [hpf]
            dsimp only
            rw [hc1, hc2]
          rw [hnew] at h
          exact (Except.error.inj h).symm
        | some re2 =>
          intro h
          have hnew : Parser.new format cs =
              .ok ⟨re1, re2, out.2.2.1, out.2.2.2, defaultTypes, !cs⟩ := by
            unfold Parser.new
            rw [hpf]
            dsimp only
            rw [hc1, hc2]
          rw [hnew] at h
          cases h

/-- C6: counterexample — the template `(` satisfies every one of the
claim's four conditions (no nested `\x7b`, no stray `\x7d`, no unterminated
field, no unknown tag — `wellBraced` holds), yet compilation still fails:
the emitted pattern `^($` is not a valid regex. -/
theorem C6_counterexample :
    Parser.new "(" false = .error .InvalidFormat ∧
    wellBraced defaultTypes "(".toList false false "" = true := by
  refine ⟨by decide, by decide⟩

/-- Witness for C6: an unknown type tag (`zz`) is a compile-time error. -/
theorem C6_witness : ∃ e, Parser.new "x\x7by:zz\x7d" false = .error e :=
  (C6_compile_error_characterization.1 "x\x7by:zz\x7d" false).mpr (Or.inl (by decide))

/-- The declaration-order list of a template's fields as raw
`(name, type-tag)` pairs: an independent scan with the same discipline as
the compiler (`\x7b\x7b`/`\x7d\x7d` are literals, `:` inside a field starts the tag).
On templates the compiler rejects its value is irrelevant. -/
def templateFields : List Char → Bool → Bool → String → String → List (String × String)
  | [], _, _, _, _ => []
  | '\x7b' :: '\x7b' :: tl, inF, inT, cf, ct => templateFields tl inF inT cf ct
  | '\x7b' :: tl, _, _, _, _ => templateFields tl true false "" ""
  | '\x7d' :: '\x7d' :: tl, inF, inT, cf, ct => templateFields tl inF inT cf ct
  | '\x7d' :: tl, inF, inT, cf, ct =>
    if inF then (cf, ct) :: templateFields tl false false cf ct
    else templateFields tl inF inT cf ct
  | ':' :: tl, inF, inT, cf, ct =>
    if inF then templateFields tl inF true cf ct
    else templateFields tl inF inT cf ct
  | c :: tl, inF, inT, cf, ct =>
    if inF then
      (if inT then templateFields tl inF inT cf (ct.push c)
       else templateFields tl inF inT (cf.push c) ct)
    else templateFields tl inF inT cf ct

/-- The identifier of the field with raw name `rawName` that closes when
`g0` fields were declared before it (0-based ordinal `g0`). -/
def fieldIdent (g0 : Nat) (rawName : String) : String :=
  if rawName = "" then toString g0 else normalizeFieldName rawName

/-- The field table the claims describe, built in declaration order starting
after `g0` earlier fields: the `i`-th listed field maps to group `g0+i+1`. -/
def expectedFrom (g0 : Nat) : List (String × String) → List (String × Nat)
  | [] => []
  | (nm, _) :: tl => (fieldIdent g0 nm, g0 + 1) :: expectedFrom (g0 + 1) tl

/-- `field_map` as accumulated by the compiler: successive `HashMap::insert`s. -/
def extendMap (m : List (String × Nat)) (g0 : Nat) : List (String × String) → List (String × Nat)
  | [] => m
  | (nm, _) :: tl => extendMap (insertAssoc m (fieldIdent g0 nm) (g0 + 1)) (g0 + 1) tl

theorem insertAssoc_fresh {α : Type} (m : List (String × α)) (k : String) (v : α)
    (h : k ∉ m.map Prod.fst) : insertAssoc m k v = m ++ [(k, v)] := by
  induction m with
  | nil => rfl
  | cons e tl ih =>
    simp only [List.map_cons, List.mem_cons] at h
    push_neg at h
    simp only [insertAssoc, if_neg (Ne.symm h.1)]
    rw [ih h.2]
    simp

theorem extendMap_append (fields : List (String × String)) : ∀ (g0 : Nat)
    (m : List (String × Nat)),
    ((expectedFrom g0 fields).map Prod.fst).Nodup →
    (∀ k ∈ (expectedFrom g0 fields).map Prod.fst, k ∉ m.map Prod.fst) →
    extendMap m g0 fields = m ++ expectedFrom g0 fields := by
  induction fields with
  | nil =>
    intro g0 m _ _
    simp [extendMap, expectedFrom]
  | cons f tl ih =>
    intro g0 m hnodup hdisj
    obtain ⟨nm, ty⟩ := f
    simp only [expectedFrom, List.map_cons, List.nodup_cons] at hnodup hdisj
    have hfresh : fieldIdent g0 nm ∉ m.map Prod.fst := by
      apply hdisj
      simp
    rw [show extendMap m g0 ((nm, ty) :: tl) =
        extendMap (insertAssoc m (fieldIdent g0 nm) (g0 + 1)) (g0 + 1) tl from rfl]
    rw [insertAssoc_fresh m _ _ hfresh]
    rw [ih (g0 + 1) (m ++ [(fieldIdent g0 nm, g0 + 1)]) hnodup.2 ?_]
    · simp [expectedFrom]
    · intro k hk
      simp only [List.map_append, List.mem_append, List.map_cons, List.map_nil]
      push_neg
      constructor
      · intro hkm
        exact absurd hk (by intro hck; exact (hdisj k (by simp [hck])) hkm)
      · simp only [List.mem_singleton]
        intro hkid
        exact absurd (hkid ▸ hk) hnodup.1

theorem pfClose_ok_map (tcs : List (String × Conv)) (st st2 : PFSt)
    (h : pfClose tcs st = .ok st2) :
    st2.fieldMap = insertAssoc st.fieldMap (fieldIdent st.groupCount st.currentField)
      (st.groupCount + 1) ∧
    st2.groupCount = st.groupCount + 1 ∧ st2.currentField = st.currentField := by
  unfold pfClose at h
  dsimp only at h
  split at h
  · exact absurd h (by simp)
  · split at h <;> cases h <;> simp [fieldIdent]

theorem pfLoop_fieldMap (tcs : List (String × Conv)) (cs : List Char) (st : PFSt) :
    ∀ st2, pfLoop tcs cs st = .ok st2 →
    st2.fieldMap = extendMap st.fieldMap st.groupCount
      (templateFields cs st.inField st.inType st.currentField st.currentType) ∧
    st2.groupCount = st.groupCount +
      (templateFields cs st.inField st.inType st.currentField st.currentType).length := by
  induction cs, st using pfLoop.induct tcs <;> intro st2 h
  case case1 st =>
    obtain rfl := Except.ok.inj h
    exact ⟨rfl, rfl⟩
  case case2 tl st ih =>
    rw [pfLoop.eq_2] at h
    rw [templateFields.eq_2]
    exact ih st2 h
  case case3 tl st hne hf =>
    rw [pfLoop.eq_3 tcs st tl hne, if_pos hf] at h
    cases h
  case case4 tl st hne hf ih =>
    rw [pfLoop.eq_3 tcs st tl hne, if_neg hf] at h
    rw [templateFields.eq_3 st.inField st.inType st.currentField st.currentType tl hne]
    exact ih st2 h
  case case5 tl st ih =>
    rw [pfLoop.eq_4] at h
    rw [templateFields.eq_4]
    exact ih st2 h
  case case6 tl st hne hf e2 herr =>
    rw [pfLoop.eq_5 tcs st tl hne, if_pos hf, herr] at h
    cases h
  case case7 tl st hne hf stc hok ih =>
    obtain ⟨inF, inT, cf, ct, pat, bc, gc, fm, fts⟩ := st
    replace hf : inF = true := hf
    subst hf
    rw [pfLoop.eq_5 tcs _ tl hne, if_pos rfl, hok] at h
    obtain ⟨hm, hg, hcf⟩ := pfClose_ok_map tcs _ stc hok
    obtain ⟨hif, hit, hct, _⟩ := pfClose_ok_fields tcs _ stc hok
    have hih := ih st2 h
    rw [hm, hg, hcf, hif, hit, hct] at hih
    rw [templateFields.eq_5 true inT cf ct tl hne, if_pos rfl]
    dsimp only at hih ⊢
    refine ⟨hih.1, ?_⟩
    rw [hih.2]
    simp only [List.length_cons]
    omega
  case case8 tl st hne hf =>
    rw [pfLoop.eq_5 tcs st tl hne, if_neg hf] at h
    cases h
  case case9 tl st hf ih =>
    obtain ⟨inF, inT, cf, ct, pat, bc, gc, fm, fts⟩ := st
    replace hf : inF = true := hf
    subst hf
    rw [pfLoop.eq_6, if_pos rfl] at h
    rw [templateFields.eq_6 true inT cf ct tl, if_pos rfl]
    exact ih st2 h
  case case10 tl st hf ih =>
    obtain ⟨inF, inT, cf, ct, pat, bc, gc, fm, fts⟩ := st
    replace hf : inF = false := by simpa using hf
    subst hf
    rw [pfLoop.eq_6, if_neg (by simp)] at h
    rw [templateFields.eq_6 false inT cf ct tl, if_neg (by simp)]
    exact ih st2 h
  case case11 c tl st h1 h2 h3 h4 h5 hf ht ih =>
    obtain ⟨inF, inT, cf, ct, pat, bc, gc, fm, fts⟩ := st
    replace hf : inF = true := hf
    replace ht : inT = true := ht
    subst hf
    subst ht
    rw [pfLoop.eq_7 tcs _ c tl h1 h2 h3 h4 h5, if_pos rfl, if_pos rfl] at h
    rw [templateFields.eq_7 true true cf ct c tl h1 h2 h3 h4 h5, if_pos rfl, if_pos rfl]
    exact ih st2 h
  case case12 c tl st h1 h2 h3 h4 h5 hf ht ih =>
    obtain ⟨inF, inT, cf, ct, pat, bc, gc, fm, fts⟩ := st
    replace hf : inF = true := hf
    replace ht : inT = false := by simpa using ht
    subst hf
    subst ht
    rw [pfLoop.eq_7 tcs _ c tl h1 h2 h3 h4 h5, if_pos rfl, if_neg (by simp)] at h
    rw [templateFields.eq_7 true false cf ct c tl h1 h2 h3 h4 h5, if_pos rfl, if_neg (by simp)]
    exact ih st2 h
  case case13 c tl st h1 h2 h3 h4 h5 hf ih =>
    obtain ⟨inF, inT, cf, ct, pat, bc, gc, fm, fts⟩ := st
    replace hf : inF = false := by simpa using hf
    subst hf
    rw [pfLoop.eq_7 tcs _ c tl h1 h2 h3 h4 h5, if_neg (by simp)] at h
    rw [templateFields.eq_7 false inT cf ct c tl h1 h2 h3 h4 h5, if_neg (by simp)]
    exact ih st2 h

/-- **C8.** For every template that compiles, provided the normalized field
identifiers are pairwise distinct, the compiled `field_map` assigns the i-th
declared field (0-based, named and anonymous sharing one counter) the capture
group index `i+1`; an anonymous field's identifier is the decimal string of
`i`, and a named field's identifier is its template name with every `.` and
`[` replaced by `__` and every `]` removed (the code removes all `]`, not
just a trailing one). -/
theorem C8_field_map (format : String) (tcs : List (String × Conv))
    (out : String × String × List (String × Nat) × List (String × String))
    (hok : parseFormat format tcs = .ok out)
    (hnd : ((expectedFrom 0 (templateFields format.toList false false "" "")).map
      Prod.fst).Nodup) :
    out.2.2.1 = expectedFrom 0 (templateFields format.toList false false "" "") := by
  unfold parseFormat at hok
  cases hpf : pfLoop tcs format.toList pfInit with
  | error e =>
    rw [hpf] at hok
    cases hok
  | ok st =>
    rw [hpf] at hok
    dsimp only at hok
    split at hok
    · cases hok
    · obtain rfl := Except.ok.inj hok
      dsimp only
      obtain ⟨hm, _⟩ := pfLoop_fieldMap tcs format.toList pfInit st hpf
      rw [hm]
      exact (extendMap_append _ 0 [] hnd (by simp)).trans (List.nil_append _)

/-- **C8 counterexample.** The claim says only a *trailing* `]` is dropped
from a named field; the code's `.replace("]", "")` removes every `]`.  The
template `\x7ba]b\x7d` compiles with field identifier `ab` (interior `]`
deleted), while the claimed normalization of `a]b` leaves it unchanged. -/
theorem C8_counterexample :
    (parseFormat "\x7ba]b\x7d" defaultTypes).toOption.map
        (fun out => out.2.2.1) = some [("ab", 1)] ∧
      specNormalize "a]b" = "a]b" := by
  constructor
  · decide
  · decide

/-- Witness for C8: `\x7buser.name\x7d \x7b\x7d \x7barray[0]:d\x7d` compiles, and its
field map is exactly `[(user__name, 1), (1, 2), (array__0, 3)]`. -/
theorem C8_witness :
    ∃ out, parseFormat "\x7buser.name\x7d \x7b\x7d \x7barray[0]:d\x7d" defaultTypes = .ok out ∧
      out.2.2.1 = [("user__name", 1), ("1", 2), ("array__0", 3)] := by
  have hsome : (parseFormat "\x7buser.name\x7d \x7b\x7d \x7barray[0]:d\x7d"
      defaultTypes).toOption.isSome = true := by decide
  cases hpf : parseFormat "\x7buser.name\x7d \x7b\x7d \x7barray[0]:d\x7d" defaultTypes with
  | error e =>
    rw [hpf] at hsome
    cases hsome
  | ok out =>
    refine ⟨out, rfl, (C8_field_map _ defaultTypes out hpf ?_).trans ?_⟩
    · decide
    · decide

/-! ## C2: templates as segment lists

The round-trip claim is settled over templates given as a list of segments:
literal characters that are special neither to `parse_format` nor to the
regex syntax, and fields whose type tag is one of the three registry types
with a pattern (or empty).  Each such template is rendered to a template
string and fed to the real pipeline. -/

/-- A template segment: a literal character or a `\x7bname:ty\x7d` field
(`ty = ""` for `\x7bname\x7d`). -/
inductive Seg where
  | lit (c : Char)
  | field (nm ty : String)
deriving DecidableEq, Repr

/-- Characters that stand for themselves both in a template (no braces, no
colon) and in the emitted regex (no metacharacters, since `parse_format`
does not escape literals). -/
def safeLit (c : Char) : Bool :=
  !(['(', ')', '[', ']', '\x7b', '\x7d', '\\', '.', '|', '?', '*', '+', '^', '$', ':'].contains c)

def goodSeg : Seg → Bool
  | .lit c => safeLit c
  | .field nm ty =>
    nm.toList.all (fun c => !(['\x7b', '\x7d', ':'].contains c)) &&
      (["", "d", "f", "w"].contains ty)

def goodSegs (segs : List Seg) : Bool := segs.all goodSeg

/-- One field segment rendered as template text. -/
def renderF (nm ty : String) : List Char :=
  '\x7b' :: nm.toList ++ (if ty = "" then [] else ':' :: ty.toList) ++ ['\x7d']

/-- The whole template text of a segment list. -/
def renderT : List Seg → List Char
  | [] => []
  | .lit c :: tl => c :: renderT tl
  | .field nm ty :: tl => renderF nm ty ++ renderT tl

/-- The regex sub-pattern a field of type `ty` receives (`get_pattern()`,
`[^\s]+` when untyped). -/
def tpStr (ty : String) : String :=
  if ty = "d" then intPattern
  else if ty = "f" then floatPattern
  else if ty = "w" then wordPattern
  else "[^\\s]+"

/-- The pattern text `parse_format` accumulates for a segment list. -/
def renderP : List Seg → List Char
  | [] => []
  | .lit c :: tl => c :: renderP tl
  | .field _ ty :: tl => '(' :: (tpStr ty).toList ++ ')' :: renderP tl

def clsNS : RE := .cls true [.space]

def clsD : RE := .cls false [.digit]

def clsW : RE := .cls false [.word]

/-- `x+` as the scanner builds it. -/
def plusRE (a : RE) : RE := .seq a (.star a)

/-- The regex AST the crate's parser produces for `tpStr ty` (a single
alternation-free arm). -/
def tpRE (ty : String) : RE :=
  if ty = "d" then .seq (RE.opt (.lit '-')) (.seq (plusRE clsD) .eps)
  else if ty = "f" then
    .seq (RE.opt (.lit '-'))
      (.seq (.star clsD) (.seq (RE.opt (.lit '.')) (.seq (plusRE clsD) .eps)))
  else if ty = "w" then .seq (plusRE clsW) .eps
  else .seq (plusRE clsNS) .eps

/-- The item regexes of a segment list, fields capturing as groups `g`,
`g+1`, …. -/
def segsREs : Nat → List Seg → List RE
  | _, [] => []
  | g, .lit c :: tl => .lit c :: segsREs g tl
  | g, .field _ ty :: tl => .group g (tpRE ty) :: segsREs (g + 1) tl

/-- Right-nested sequencing with continuation `k`, the shape `curRE` gives a
parsed pattern. -/
def chainAcc (k : RE) : List RE → RE
  | [] => k
  | r :: tl => .seq r (chainAcc k tl)

def nFields : List Seg → Nat
  | [] => 0
  | .lit _ :: tl => nFields tl
  | .field _ _ :: tl => nFields tl + 1

/-- The `(name, type)` pairs of the fields, in declaration order. -/
def segFields : List Seg → List (String × String)
  | [] => []
  | .lit _ :: tl => segFields tl
  | .field nm ty :: tl => (nm, ty) :: segFields tl

/-- The input decomposed along the template: literals verbatim, each field
its raw capture. -/
def flattenChars : List Seg → List (List Char) → List Char
  | [], _ => []
  | .lit c :: tl, raws => c :: flattenChars tl raws
  | .field _ _ :: tl, raw :: raws => raw ++ flattenChars tl raws
  | .field _ _ :: tl, [] => flattenChars tl []

def groupFree : RE → Bool
  | .eps => true
  | .bol => true
  | .eol => true
  | .dot => true
  | .lit _ => true
  | .cls _ _ => true
  | .seq a b => groupFree a && groupFree b
  | .alt a b => groupFree a && groupFree b
  | .star a => groupFree a
  | .group _ _ => false

/-- `Decomp g segs raws input E`: `input` splits along `segs` into its
literal characters and the raw field captures `raws`, and `E` holds exactly
one capture entry per field, for groups `g` onward, recording the suffix
lengths at the field's start and end (the matcher's capture encoding). -/
inductive Decomp : Nat → List Seg → List (List Char) → List Char → Caps → Prop where
  | nil (g : Nat) : Decomp g [] [] [] []
  | lit (g : Nat) (c : Char) (tl : List Seg) (raws : List (List Char)) (rest : List Char)
      (E : Caps) : Decomp g tl raws rest E → Decomp g (.lit c :: tl) raws (c :: rest) E
  | field (g : Nat) (nm ty : String) (tl : List Seg) (raw : List Char)
      (raws : List (List Char)) (rest : List Char) (E : Caps) :
      Decomp (g + 1) tl raws rest E →
      Decomp g (.field nm ty :: tl) (raw :: raws) (raw ++ rest)
        (E ++ [(g, (raw ++ rest).length, rest.length)])

theorem mem_of_head_some {α : Type} {l : List α} {a : α} (h : l.head? = some a) : a ∈ l := by
  cases l with
  | nil => cases h
  | cons b tl =>
    obtain rfl := Option.some.inj h
    exact List.mem_cons_self b tl

theorem mem_mtch_eps {ci : Bool} {total fuel : Nat} {rest : List Char} {caps : Caps}
    {rc : List Char × Caps} (h : rc ∈ mtch ci total fuel .eps rest caps) :
    rc = (rest, caps) := by
  match fuel with
  | 0 => simp [mtch] at h
  | fuel + 1 => simpa [mtch] using h

theorem mem_mtch_bol {ci : Bool} {total fuel : Nat} {rest : List Char} {caps : Caps}
    {rc : List Char × Caps} (h : rc ∈ mtch ci total fuel .bol rest caps) :
    rest.length = total ∧ rc = (rest, caps) := by
  match fuel with
  | 0 => simp [mtch] at h
  | fuel + 1 =>
    simp only [mtch] at h
    split at h
    · next hc => exact ⟨hc, by simpa using h⟩
    · simp at h

theorem mem_mtch_eol {ci : Bool} {total fuel : Nat} {rest : List Char} {caps : Caps}
    {rc : List Char × Caps} (h : rc ∈ mtch ci total fuel .eol rest caps) :
    rest = [] ∧ rc = (rest, caps) := by
  match fuel with
  | 0 => simp [mtch] at h
  | fuel + 1 =>
    simp only [mtch] at h
    split at h
    · next hc => exact ⟨by simpa using hc, by simpa using h⟩
    · simp at h

theorem mem_mtch_lit {total fuel : Nat} {a : Char} {rest : List Char} {caps : Caps}
    {rc : List Char × Caps} (h : rc ∈ mtch false total fuel (.lit a) rest caps) :
    ∃ tl, rest = a :: tl ∧ rc = (tl, caps) := by
  match fuel with
  | 0 => simp [mtch] at h
  | fuel + 1 =>
    cases rest with
    | nil => simp [mtch] at h
    | cons c tl =>
      simp only [mtch, foldCase, if_false, Bool.false_eq_true] at h
      split at h
      · next hc => exact ⟨tl, by rw [hc], by simpa using h⟩
      · simp at h

theorem mem_mtch_seq {ci : Bool} {total fuel : Nat} {a b : RE} {rest : List Char}
    {caps : Caps} {rc : List Char × Caps} (h : rc ∈ mtch ci total fuel (.seq a b) rest caps) :
    ∃ fuel2 rc1, fuel = fuel2 + 1 ∧ rc1 ∈ mtch ci total fuel2 a rest caps ∧
      rc ∈ mtch ci total fuel2 b rc1.1 rc1.2 := by
  match fuel with
  | 0 => simp [mtch] at h
  | fuel + 1 =>
    simp only [mtch, List.mem_flatMap] at h
    obtain ⟨rc1, h1, h2⟩ := h
    exact ⟨fuel, rc1, rfl, h1, h2⟩

theorem mem_mtch_group {ci : Bool} {total fuel : Nat} {i : Nat} {a : RE} {rest : List Char}
    {caps : Caps} {rc : List Char × Caps}
    (h : rc ∈ mtch ci total fuel (.group i a) rest caps) :
    ∃ fuel2 rc0, fuel = fuel2 + 1 ∧ rc0 ∈ mtch ci total fuel2 a rest caps ∧
      rc = (rc0.1, (i, rest.length, rc0.1.length) :: rc0.2) := by
  match fuel with
  | 0 => simp [mtch] at h
  | fuel + 1 =>
    simp only [mtch, List.mem_map] at h
    obtain ⟨rc0, h0, heq⟩ := h
    exact ⟨fuel, rc0, rfl, h0, heq.symm⟩

/-- Whatever a sub-regex matches, the remaining input is a suffix of what it
was given. -/
theorem mtch_suffix (ci : Bool) (total : Nat) :
    ∀ (fuel : Nat) (r : RE) (rest : List Char) (caps : Caps) (rc : List Char × Caps),
      rc ∈ mtch ci total fuel r rest caps → rc.1 <:+ rest := by
  intro fuel
  induction fuel with
  | zero => intro r rest caps rc h; simp [mtch] at h
  | succ fuel ih =>
    intro r rest caps rc h
    cases r with
    | eps =>
      obtain rfl : rc = (rest, caps) := by simpa [mtch] using h
      exact List.suffix_refl rest
    | bol =>
      obtain rfl := (mem_mtch_bol h).2
      exact List.suffix_refl rest
    | eol =>
      obtain rfl := (mem_mtch_eol h).2
      exact List.suffix_refl rest
    | dot =>
      cases rest with
      | nil => simp [mtch] at h
      | cons c tl =>
        simp only [mtch] at h
        split at h
        · simp at h
        · obtain rfl : rc = (tl, caps) := by simpa using h
          exact List.suffix_cons c tl
    | lit a =>
      cases rest with
      | nil => simp [mtch] at h
      | cons c tl =>
        simp only [mtch] at h
        split at h
        · obtain rfl : rc = (tl, caps) := by simpa using h
          exact List.suffix_cons c tl
        · simp at h
    | cls neg items =>
      cases rest with
      | nil => simp [mtch] at h
      | cons c tl =>
        simp only [mtch] at h
        split at h
        · obtain rfl : rc = (tl, caps) := by simpa using h
          exact List.suffix_cons c tl
        · simp at h
    | seq a b =>
      simp only [mtch, List.mem_flatMap] at h
      obtain ⟨rc1, h1, h2⟩ := h
      exact (ih b rc1.1 rc1.2 rc h2).trans (ih a rest caps rc1 h1)
    | alt a b =>
      simp only [mtch, List.mem_append] at h
      rcases h with h | h
      · exact ih a rest caps rc h
      · exact ih b rest caps rc h
    | star a =>
      simp only [mtch, List.mem_append, List.mem_flatMap] at h
      rcases h with ⟨rc1, h1, h2⟩ | h
      · split at h2
        · exact (ih (.star a) rc1.1 rc1.2 rc h2).trans (ih a rest caps rc1 h1)
        · simp at h2
      · obtain rfl : rc = (rest, caps) := by simpa using h
        exact List.suffix_refl rest
    | group i a =>
      simp only [mtch, List.mem_map] at h
      obtain ⟨rc0, h0, heq⟩ := h
      rw [← heq]
      exact ih a rest caps rc0 h0

/-- A group-free sub-regex leaves the captures untouched. -/
theorem mtch_groupFree (ci : Bool) (total : Nat) :
    ∀ (fuel : Nat) (r : RE) (rest : List Char) (caps : Caps) (rc : List Char × Caps),
      groupFree r = true → rc ∈ mtch ci total fuel r rest caps → rc.2 = caps := by
  intro fuel
  induction fuel with
  | zero => intro r rest caps rc _ h; simp [mtch] at h
  | succ fuel ih =>
    intro r rest caps rc hg h
    cases r with
    | eps =>
      obtain rfl : rc = (rest, caps) := by simpa [mtch] using h
      rfl
    | bol =>
      obtain rfl := (mem_mtch_bol h).2
      rfl
    | eol =>
      obtain rfl := (mem_mtch_eol h).2
      rfl
    | dot =>
      cases rest with
      | nil => simp [mtch] at h
      | cons c tl =>
        simp only [mtch] at h
        split at h
        · simp at h
        · obtain rfl : rc = (tl, caps) := by simpa using h
          rfl
    | lit a =>
      cases rest with
      | nil => simp [mtch] at h
      | cons c tl =>
        simp only [mtch] at h
        split at h
        · obtain rfl : rc = (tl, caps) := by simpa using h
          rfl
        · simp at h
    | cls neg items =>
      cases rest with
      | nil => simp [mtch] at h
      | cons c tl =>
        simp only [mtch] at h
        split at h
        · obtain rfl : rc = (tl, caps) := by simpa using h
          rfl
        · simp at h
    | seq a b =>
      simp only [groupFree, Bool.and_eq_true] at hg
      simp only [mtch, List.mem_flatMap] at h
      obtain ⟨rc1, h1, h2⟩ := h
      rw [ih b rc1.1 rc1.2 rc hg.2 h2, ih a rest caps rc1 hg.1 h1]
    | alt a b =>
      simp only [groupFree, Bool.and_eq_true] at hg
      simp only [mtch, List.mem_append] at h
      rcases h with h | h
      · exact ih a rest caps rc hg.1 h
      · exact ih b rest caps rc hg.2 h
    | star a =>
      have hga : groupFree a = true := hg
      simp only [mtch, List.mem_append, List.mem_flatMap] at h
      rcases h with ⟨rc1, h1, h2⟩ | h
      · split at h2
        · rw [ih (.star a) rc1.1 rc1.2 rc hg h2, ih a rest caps rc1 hga h1]
        · simp at h2
      · obtain rfl : rc = (rest, caps) := by simpa using h
        rfl
    | group i a => simp [groupFree] at hg

theorem tpRE_groupFree (ty : String) : groupFree (tpRE ty) = true := by
  unfold tpRE
  split_ifs <;> rfl

/-- The heart of the round trip: a full match of the rendered chain
decomposes the input along the template and records one capture entry per
field. -/
theorem mtch_chain (total : Nat) (segs : List Seg) :
    ∀ (g fuel : Nat) (rest : List Char) (caps : Caps) (rc : List Char × Caps),
      rc ∈ mtch false total fuel (chainAcc (.seq .eol .eps) (segsREs g segs)) rest caps →
      ∃ raws E, Decomp g segs raws rest E ∧ rc = (([] : List Char), E ++ caps) := by
  induction segs with
  | nil =>
    intro g fuel rest caps rc h
    simp only [segsREs, chainAcc] at h
    obtain ⟨f2, rc1, rfl, h1, h2⟩ := mem_mtch_seq h
    obtain ⟨hre, hrc1⟩ := mem_mtch_eol h1
    subst hre
    subst hrc1
    have h3 := mem_mtch_eps h2
    exact ⟨[], [], Decomp.nil g, by simpa using h3⟩
  | cons s tl ih =>
    cases s with
    | lit c =>
      intro g fuel rest caps rc h
      simp only [segsREs, chainAcc] at h
      obtain ⟨f2, rc1, rfl, h1, h2⟩ := mem_mtch_seq h
      obtain ⟨tl2, rfl, rfl⟩ := mem_mtch_lit h1
      obtain ⟨raws, E, hD, hrc⟩ := ih g f2 tl2 caps rc h2
      exact ⟨raws, E, Decomp.lit g c tl raws tl2 E hD, hrc⟩
    | field nm ty =>
      intro g fuel rest caps rc h
      simp only [segsREs, chainAcc] at h
      obtain ⟨f2, rc1, rfl, h1, h2⟩ := mem_mtch_seq h
      obtain ⟨f3, rc0, rfl, h0, hrc1⟩ := mem_mtch_group h1
      have hcap0 : rc0.2 = caps :=
        mtch_groupFree false total f3 (tpRE ty) rest caps rc0 (tpRE_groupFree ty) h0
      obtain ⟨pre, hpre⟩ := mtch_suffix false total f3 (tpRE ty) rest caps rc0 h0
      subst hrc1
      rw [hcap0] at h2
      obtain ⟨raws, E, hD, hrc⟩ :=
        ih (g + 1) (f3 + 1) rc0.1 ((g, rest.length, rc0.1.length) :: caps) rc h2
      refine ⟨pre :: raws, E ++ [(g, rest.length, rc0.1.length)], ?_, ?_⟩
      · rw [← hpre]
        exact Decomp.field g nm ty tl pre raws rc0.1 E hD
      · rw [hrc]
        simp

theorem Decomp_flatten {g : Nat} {segs : List Seg} {raws : List (List Char)}
    {input : List Char} {E : Caps} (hD : Decomp g segs raws input E) :
    input = flattenChars segs raws := by
  induction hD with
  | nil g => rfl
  | lit g c tl raws rest E hD ih => simp [flattenChars, ih]
  | field g nm ty tl raw raws rest E hD ih => simp [flattenChars, ih]

theorem Decomp_raws_length {g : Nat} {segs : List Seg} {raws : List (List Char)}
    {input : List Char} {E : Caps} (hD : Decomp g segs raws input E) :
    raws.length = nFields segs := by
  induction hD with
  | nil g => rfl
  | lit g c tl raws rest E hD ih => simpa [nFields] using ih
  | field g nm ty tl raw raws rest E hD ih => simpa [nFields] using ih

theorem Decomp_idx_ge {g : Nat} {segs : List Seg} {raws : List (List Char)}
    {input : List Char} {E : Caps} (hD : Decomp g segs raws input E) :
    ∀ e ∈ E, g ≤ e.1 := by
  induction hD with
  | nil g => intro e he; simp at he
  | lit g c tl raws rest E hD ih => exact ih
  | field g nm ty tl raw raws rest E hD ih =>
    intro e he
    rcases List.mem_append.mp he with he | he
    · exact Nat.le_of_succ_le (ih e he)
    · obtain rfl : e = (g, (raw ++ rest).length, rest.length) := by simpa using he
      exact Nat.le_refl g

/-- Where each field's capture entry sits: group `g + j` captured the `j`-th
raw, and its entry records the suffix lengths around it. -/
theorem Decomp_find {g : Nat} {segs : List Seg} {raws : List (List Char)}
    {input : List Char} {E : Caps} (hD : Decomp g segs raws input E) :
    ∀ j, j < raws.length →
      ∃ pre post, input = pre ++ raws.getD j [] ++ post ∧
        E.find? (fun e => e.1 = g + j) =
          some (g + j, (raws.getD j []).length + post.length, post.length) := by
  induction hD with
  | nil g => intro j hj; simp at hj
  | lit g c tl raws rest E hD ih =>
    intro j hj
    obtain ⟨pre, post, h1, h2⟩ := ih j hj
    exact ⟨c :: pre, post, by simp [h1], h2⟩
  | field g nm ty tl raw raws rest E hD ih =>
    intro j hj
    cases j with
    | zero =>
      refine ⟨[], rest, by simp, ?_⟩
      rw [List.find?_append]
      have hnone : E.find? (fun e => e.1 = g + 0) = none := by
        rw [List.find?_eq_none]
        intro e he
        have hge := Decomp_idx_ge hD e he
        simp only [decide_eq_true_eq]
        omega
      rw [hnone]
      simp
    | succ j2 =>
      obtain ⟨pre, post, h1, h2⟩ := ih j2 (by simpa [Nat.succ_lt_succ_iff] using hj)
      refine ⟨raw ++ pre, post, by simp [h1], ?_⟩
      rw [List.find?_append]
      have hnum : g + 1 + j2 = g + (j2 + 1) := by omega
      rw [hnum] at h2
      rw [h2]
      simp

/-- Reading a field's capture from the match context: group `j + 1` holds
the `j`-th raw substring. -/
theorem capsGet_decomp {segs : List Seg} {raws : List (List Char)} {input : List Char}
    {E : Caps} (hD : Decomp 1 segs raws input E) (ms me : Nat) (j : Nat)
    (hj : j < raws.length) :
    ∃ sp, CapsCtx.get ⟨input, ms, me, E⟩ (j + 1) =
      some (String.mk (raws.getD j []), sp) := by
  obtain ⟨pre, post, h1, h2⟩ := Decomp_find hD j hj
  have hnum : 1 + j = j + 1 := Nat.add_comm 1 j
  rw [hnum] at h2
  have hlen : input.length = pre.length + (raws.getD j []).length + post.length := by
    rw [h1]
    simp only [List.length_append]
  refine ⟨(pre.length, pre.length + (raws.getD j []).length), ?_⟩
  unfold CapsCtx.get
  dsimp only
  rw [h2]
  have ha1 : input.length - ((raws.getD j []).length + post.length) = pre.length := by omega
  have ha2 : input.length - post.length = pre.length + (raws.getD j []).length := by omega
  have hslice : sliceStr input pre.length (pre.length + (raws.getD j []).length) =
      String.mk (raws.getD j []) := by
    unfold sliceStr
    rw [Nat.add_sub_cancel_left, h1, List.append_assoc, List.drop_left, List.take_left]
  simp only [Option.map_some']
  rw [ha1, ha2, hslice]

/-- The first pass of `process_captures` over the in-order field map: entry
`j` of `fixed` receives group `j + 1`'s raw substring. -/
theorem foldFirst_fixed (cc : CapsCtx) (vals : Nat → String) (flds : List (String × String)) :
    ∀ (g0 : Nat) (acc : List String × List (String × String) × List (Nat × Nat)),
      (∀ j, j < flds.length → ∃ sp, cc.get (g0 + j + 1) = some (vals (g0 + j), sp)) →
      g0 + flds.length ≤ acc.1.length →
      (((expectedFrom g0 flds).foldl
        (fun (acc : List String × List (String × String) × List (Nat × Nat)) e =>
          match cc.get e.2 with
          | some v => (acc.1.set (e.2 - 1) v.1, insertAssoc acc.2.1 e.1 v.1,
              acc.2.2 ++ [(v.2.1, v.2.2)])
          | none => acc)
        acc).1.length = acc.1.length) ∧
      ∀ i : Nat,
        ((expectedFrom g0 flds).foldl
          (fun (acc : List String × List (String × String) × List (Nat × Nat)) e =>
            match cc.get e.2 with
            | some v => (acc.1.set (e.2 - 1) v.1, insertAssoc acc.2.1 e.1 v.1,
                acc.2.2 ++ [(v.2.1, v.2.2)])
            | none => acc)
          acc).1[i]? =
          if g0 ≤ i ∧ i < g0 + flds.length then some (vals i) else acc.1[i]? := by
  induction flds with
  | nil =>
    intro g0 acc _ _
    refine ⟨rfl, fun i => ?_⟩
    have hno : ¬(g0 ≤ i ∧ i < g0 + ([] : List (String × String)).length) := by
      simp only [List.length_nil]
      omega
    rw [if_neg hno]
    rfl
  | cons f tl ih =>
    intro g0 acc hv hlen
    obtain ⟨nm, ty⟩ := f
    obtain ⟨sp0, hget0⟩ := hv 0 (by simp)
    simp only [Nat.add_zero] at hget0
    simp only [expectedFrom, List.foldl_cons, hget0]
    have hv2 : ∀ j, j < tl.length →
        ∃ sp, cc.get (g0 + 1 + j + 1) = some (vals (g0 + 1 + j), sp) := by
      intro j hj
      obtain ⟨sp, h⟩ := hv (j + 1) (by simp only [List.length_cons]; omega)
      refine ⟨sp, ?_⟩
      have e1 : g0 + 1 + j = g0 + (j + 1) := by omega
      rw [e1]
      exact h
    have hlen2 : g0 + 1 + tl.length ≤
        (acc.1.set (g0 + 1 - 1) (vals g0), insertAssoc acc.2.1 (fieldIdent g0 nm) (vals g0),
          acc.2.2 ++ [(sp0.1, sp0.2)]).1.length := by
      simp only [List.length_set]
      simp only [List.length_cons] at hlen
      omega
    obtain ⟨hl, hg⟩ := ih (g0 + 1)
      (acc.1.set (g0 + 1 - 1) (vals g0), insertAssoc acc.2.1 (fieldIdent g0 nm) (vals g0),
        acc.2.2 ++ [(sp0.1, sp0.2)]) hv2 hlen2
    refine ⟨by rw [hl]; simp [List.length_set], fun i => ?_⟩
    rw [hg i]
    dsimp only
    have hset : (acc.1.set (g0 + 1 - 1) (vals g0))[i]? =
        if g0 = i then (if g0 < acc.1.length then some (vals g0) else none)
        else acc.1[i]? := by
      have e2 : g0 + 1 - 1 = g0 := by omega
      rw [e2]
      exact List.getElem?_set
    rw [hset]
    simp only [List.length_cons] at hlen ⊢
    by_cases hA : g0 + 1 ≤ i ∧ i < g0 + 1 + tl.length
    · rw [if_pos hA, if_pos (by omega)]
    · rw [if_neg hA]
      by_cases hB : g0 = i
      · subst hB
        rw [if_pos rfl, if_pos (by omega), if_pos (by omega)]
      · rw [if_neg hB, if_neg (by omega)]

/-- Closing a rendered field: `pfClose` on the state a `\x7bnm:ty\x7d` scan
reaches, for the four covered type tags. -/
theorem pfClose_render (nm ty : String)
    (hty : ty = "" ∨ ty = "d" ∨ ty = "f" ∨ ty = "w") (inT : Bool) (pat : String)
    (bc : Int) (gc : Nat) (fm : List (String × Nat)) (fts : List (String × String)) :
    pfClose defaultTypes ⟨true, inT, nm, ty, pat, bc + 1, gc, fm, fts⟩ =
      .ok ⟨false, false, nm, ty,
        pat ++ "(" ++ tpStr ty ++ ")", bc + 1 - 1, gc + 1,
        insertAssoc fm (fieldIdent gc nm) (gc + 1),
        if ty = "" then fts else insertAssoc fts (fieldIdent gc nm) ty⟩ := by
  have hfi : (if nm = "" then toString (gc + 1 - 1) else normalizeFieldName nm) =
      fieldIdent gc nm := by
    unfold fieldIdent
    rw [Nat.add_sub_cancel]
  rcases hty with rfl | rfl | rfl | rfl
  · rw [← hfi]
    rfl
  · rw [← hfi]
    rfl
  · rw [← hfi]
    rfl
  · rw [← hfi]
    rfl

/-- A safe literal character just lands in the pattern. -/
theorem pfLoop_lit (tcs : List (String × Conv)) (c : Char) (hc : safeLit c = true)
    (rest : List Char) (st : PFSt) (hf : st.inField = false) :
    pfLoop tcs (c :: rest) st = pfLoop tcs rest { st with pattern := st.pattern.push c } := by
  simp only [safeLit] at hc
  simp at hc
  obtain ⟨h1, h2, h3, h4, hbra, hket, h7, h8, h9, h10, h11, h12, h13, h14, hcol⟩ := hc
  rw [pfLoop.eq_7 tcs st c rest (fun _ h _ => absurd h hbra) (fun h => absurd h hbra)
    (fun _ h _ => absurd h hket) (fun h => absurd h hket) (fun h => absurd h hcol)]
  rw [if_neg (by rw [hf]; simp)]

/-- Scanning a field name: every character is pushed onto `current_field`. -/
theorem pfLoop_name (tcs : List (String × Conv)) (cs : List Char)
    (hcs : cs.all (fun c => !(['\x7b', '\x7d', ':'].contains c)) = true) :
    ∀ (rest : List Char) (st : PFSt), st.inField = true → st.inType = false →
      pfLoop tcs (cs ++ rest) st =
        pfLoop tcs rest { st with currentField := String.mk (st.currentField.data ++ cs) } := by
  induction cs with
  | nil =>
    intro rest st _ _
    have h1 : String.mk (st.currentField.data ++ []) = st.currentField := by
      rw [List.append_nil]
    rw [List.nil_append, h1]
  | cons c cs ih =>
    intro rest st hf ht
    simp only [List.all_cons, Bool.and_eq_true] at hcs
    obtain ⟨hc1, hcs⟩ := hcs
    simp at hc1
    obtain ⟨hbra, hket, hcol⟩ := hc1
    rw [List.cons_append]
    rw [pfLoop.eq_7 tcs st c (cs ++ rest) (fun _ h _ => absurd h hbra)
      (fun h => absurd h hbra) (fun _ h _ => absurd h hket) (fun h => absurd h hket)
      (fun h => absurd h hcol)]
    rw [if_pos hf, if_neg (by rw [ht]; simp)]
    rw [ih hcs rest { st with currentField := st.currentField.push c } hf ht]
    show pfLoop tcs rest
        { st with currentField := String.mk ((st.currentField.data ++ [c]) ++ cs) } = _
    rw [List.append_assoc, List.singleton_append]

/-- A name followed by a non-brace character cannot start with `\x7b`. -/
theorem name_head_not (nm : String)
    (hnm : nm.toList.all (fun c => !(['\x7b', '\x7d', ':'].contains c)) = true)
    (d : Char) (hd : ¬ d = '\x7b') (X : List Char) :
    ∀ tl1, nm.toList ++ (d :: X) = '\x7b' :: tl1 → False := by
  intro tl1 h
  cases hl : nm.toList with
  | nil =>
    rw [hl, List.nil_append] at h
    exact hd (List.head_eq_of_cons_eq h)
  | cons c cs =>
    rw [hl, List.cons_append] at h
    have hc : c = '\x7b' := List.head_eq_of_cons_eq h
    have hmem : c ∈ nm.toList := by
      rw [hl]
      exact List.mem_cons_self c cs
    have hall := List.all_eq_true.mp hnm c hmem
    simp at hall
    exact hall.1 hc

/-- A rendered template never starts with `\x7d`. -/
theorem renderT_head_ok (segs : List Seg) (hg : goodSegs segs = true) :
    ∀ tl1, renderT segs = '\x7d' :: tl1 → False := by
  intro tl1 h
  cases segs with
  | nil => simp [renderT] at h
  | cons s tl =>
    cases s with
    | lit c =>
      simp only [renderT] at h
      have hc : c = '\x7d' := List.head_eq_of_cons_eq h
      have hs : goodSeg (Seg.lit c) = true :=
        List.all_eq_true.mp hg (Seg.lit c) (List.mem_cons_self _ _)
      simp only [goodSeg, safeLit] at hs
      simp at hs
      obtain ⟨_, _, _, _, _, hket, _, _, _, _, _, _, _, _, _⟩ := hs
      exact hket hc
    | field nm ty =>
      simp only [renderT, renderF] at h
      simp [List.cons_append, List.append_assoc] at h

/-- From the end of a field name to the closing `\x7d`: the optional `:ty`
part and the `pfClose` step. -/
theorem pfLoop_tyfield (ty : String) (hty : ty = "" ∨ ty = "d" ∨ ty = "f" ∨ ty = "w")
    (R : List Char) (hne : ∀ tl1, R = '\x7d' :: tl1 → False)
    (cf pat : String) (bc : Int) (gc : Nat) (fm : List (String × Nat))
    (fts : List (String × String)) :
    pfLoop defaultTypes ((if ty = "" then [] else ':' :: ty.toList) ++ ('\x7d' :: R))
        ⟨true, false, cf, "", pat, bc + 1, gc, fm, fts⟩ =
      pfLoop defaultTypes R
        ⟨false, false, cf, ty, pat ++ "(" ++ tpStr ty ++ ")", bc + 1 - 1, gc + 1,
         insertAssoc fm (fieldIdent gc cf) (gc + 1),
         if ty = "" then fts else insertAssoc fts (fieldIdent gc cf) ty⟩ := by
  rcases hty with rfl | rfl | rfl | rfl
  · rw [if_pos rfl, List.nil_append]
    rw [pfLoop.eq_5 defaultTypes ⟨true, false, cf, "", pat, bc + 1, gc, fm, fts⟩ R hne,
      if_pos rfl, pfClose_render cf "" (Or.inl rfl) false pat bc gc fm fts]
  · rw [if_neg (by decide)]
    show pfLoop defaultTypes (':' :: 'd' :: '\x7d' :: R)
      ⟨true, false, cf, "", pat, bc + 1, gc, fm, fts⟩ = _
    rw [pfLoop.eq_6, if_pos rfl]
    rw [pfLoop.eq_7 defaultTypes _ 'd' ('\x7d' :: R) (fun _ h _ => absurd h (by decide))
      (fun h => absurd h (by decide)) (fun _ h _ => absurd h (by decide))
      (fun h => absurd h (by decide)) (fun h => absurd h (by decide))]
    rw [if_pos rfl, if_pos rfl]
    show pfLoop defaultTypes ('\x7d' :: R) ⟨true, true, cf, "d", pat, bc + 1, gc, fm, fts⟩ = _
    rw [pfLoop.eq_5 defaultTypes ⟨true, true, cf, "d", pat, bc + 1, gc, fm, fts⟩ R hne,
      if_pos rfl, pfClose_render cf "d" (Or.inr (Or.inl rfl)) true pat bc gc fm fts]
  · rw [if_neg (by decide)]
    show pfLoop defaultTypes (':' :: 'f' :: '\x7d' :: R)
      ⟨true, false, cf, "", pat, bc + 1, gc, fm, fts⟩ = _
    rw [pfLoop.eq_6, if_pos rfl]
    rw [pfLoop.eq_7 defaultTypes _ 'f' ('\x7d' :: R) (fun _ h _ => absurd h (by decide))
      (fun h => absurd h (by decide)) (fun _ h _ => absurd h (by decide))
      (fun h => absurd h (by decide)) (fun h => absurd h (by decide))]
    rw [if_pos rfl, if_pos rfl]
    show pfLoop defaultTypes ('\x7d' :: R) ⟨true, true, cf, "f", pat, bc + 1, gc, fm, fts⟩ = _
    rw [pfLoop.eq_5 defaultTypes ⟨true, true, cf, "f", pat, bc + 1, gc, fm, fts⟩ R hne,
      if_pos rfl, pfClose_render cf "f" (Or.inr (Or.inr (Or.inl rfl))) true pat bc gc fm fts]
  · rw [if_neg (by decide)]
    show pfLoop defaultTypes (':' :: 'w' :: '\x7d' :: R)
      ⟨true, false, cf, "", pat, bc + 1, gc, fm, fts⟩ = _
    rw [pfLoop.eq_6, if_pos rfl]
    rw [pfLoop.eq_7 defaultTypes _ 'w' ('\x7d' :: R) (fun _ h _ => absurd h (by decide))
      (fun h => absurd h (by decide)) (fun _ h _ => absurd h (by decide))
      (fun h => absurd h (by decide)) (fun h => absurd h (by decide))]
    rw [if_pos rfl, if_pos rfl]
    show pfLoop defaultTypes ('\x7d' :: R) ⟨true, true, cf, "w", pat, bc + 1, gc, fm, fts⟩ = _
    rw [pfLoop.eq_5 defaultTypes ⟨true, true, cf, "w", pat, bc + 1, gc, fm, fts⟩ R hne,
      if_pos rfl, pfClose_render cf "w" (Or.inr (Or.inr (Or.inr rfl))) true pat bc gc fm fts]

/-- `parse_format`'s scan of a rendered template: the pattern is the
rendered pattern text, each field maps to the next group index, and the
brace balance is restored. -/
theorem pfLoop_render (segs : List Seg) (hg : goodSegs segs = true) :
    ∀ st : PFSt, st.inField = false →
      ∃ it cf ct fts,
        pfLoop defaultTypes (renderT segs) st =
          .ok ⟨false, it, cf, ct, String.mk (st.pattern.data ++ renderP segs),
               st.braceCount, st.groupCount + nFields segs,
               extendMap st.fieldMap st.groupCount (segFields segs), fts⟩ := by
  induction segs with
  | nil =>
    intro st hf
    obtain ⟨inF, inT, cf, ct, pat, bc, gc, fm, fts⟩ := st
    replace hf : inF = false := hf
    subst hf
    refine ⟨inT, cf, ct, fts, ?_⟩
    have h1 : String.mk (pat.data ++ renderP []) = pat := by
      rw [show renderP [] = [] from rfl, List.append_nil]
    rw [h1]
    rfl
  | cons s tl ih =>
    cases s with
    | lit c =>
      intro st hf
      have hsafe : safeLit c = true :=
        List.all_eq_true.mp hg (Seg.lit c) (List.mem_cons_self _ _)
      have hgtl : goodSegs tl = true := by
        simp only [goodSegs, List.all_cons, Bool.and_eq_true] at hg
        exact hg.2
      obtain ⟨it, cf, ct, fts, hfin⟩ := ih hgtl { st with pattern := st.pattern.push c } hf
      refine ⟨it, cf, ct, fts, ?_⟩
      show pfLoop defaultTypes (c :: renderT tl) st = _
      rw [pfLoop_lit defaultTypes c hsafe (renderT tl) st hf, hfin]
      have hp : String.mk ((st.pattern.push c).data ++ renderP tl) =
          String.mk (st.pattern.data ++ renderP (Seg.lit c :: tl)) := by
        show String.mk ((st.pattern.data ++ [c]) ++ renderP tl) =
          String.mk (st.pattern.data ++ (c :: renderP tl))
        rw [List.append_assoc, List.singleton_append]
      dsimp only
      rw [hp]
      rfl
    | field nm ty =>
      intro st hf
      obtain ⟨inF, inT, cf0, ct0, pat, bc, gc, fm, fts0⟩ := st
      replace hf : inF = false := hf
      subst hf
      have hgood : goodSeg (Seg.field nm ty) = true :=
        List.all_eq_true.mp hg _ (List.mem_cons_self _ _)
      have hgtl : goodSegs tl = true := by
        simp only [goodSegs, List.all_cons, Bool.and_eq_true] at hg
        exact hg.2
      simp only [goodSeg, Bool.and_eq_true] at hgood
      obtain ⟨hnm, htyc⟩ := hgood
      have hty : ty = "" ∨ ty = "d" ∨ ty = "f" ∨ ty = "w" := by
        simpa using htyc
      have hne := renderT_head_ok tl hgtl
      have hclose := pfLoop_tyfield ty hty (renderT tl) hne nm pat bc gc fm fts0
      have hopen :
          pfLoop defaultTypes (renderT (Seg.field nm ty :: tl))
              ⟨false, inT, cf0, ct0, pat, bc, gc, fm, fts0⟩ =
            pfLoop defaultTypes
              ((if ty = "" then [] else ':' :: ty.toList) ++ ('\x7d' :: renderT tl))
              ⟨true, false, nm, "", pat, bc + 1, gc, fm, fts0⟩ := by
        have hd : ¬ (if ty = "" then ('\x7d' : Char) else ':') = '\x7b' := by
          rcases hty with rfl | rfl | rfl | rfl <;> decide
        have hsh : renderT (Seg.field nm ty :: tl) =
            '\x7b' :: (nm.toList ++
              ((if ty = "" then ('\x7d' : Char) else ':') ::
                ((if ty = "" then [] else ty.toList ++ ['\x7d']) ++ renderT tl))) := by
          rcases hty with rfl | rfl | rfl | rfl <;> simp [renderT, renderF]
        rw [hsh]
        rw [pfLoop.eq_3 defaultTypes _ _ (name_head_not nm hnm _ hd _), if_neg (by simp)]
        rw [pfLoop_name defaultTypes nm.toList hnm _ _ rfl rfl]
        rcases hty with rfl | rfl | rfl | rfl
        · rfl
        · rfl
        · rfl
        · rfl
      rw [hclose] at hopen
      obtain ⟨it, cf2, ct2, fts2, hfin⟩ := ih hgtl
        ⟨false, false, nm, ty, pat ++ "(" ++ tpStr ty ++ ")", bc + 1 - 1, gc + 1,
         insertAssoc fm (fieldIdent gc nm) (gc + 1),
         if ty = "" then fts0 else insertAssoc fts0 (fieldIdent gc nm) ty⟩ rfl
      refine ⟨it, cf2, ct2, fts2, ?_⟩
      rw [hopen, hfin]
      dsimp only
      have hp : String.mk ((pat ++ "(" ++ tpStr ty ++ ")").data ++ renderP tl) =
          String.mk (pat.data ++ renderP (Seg.field nm ty :: tl)) := by
        show String.mk ((((pat.data ++ ['(']) ++ (tpStr ty).data) ++ [')']) ++ renderP tl) =
          String.mk (pat.data ++ (('(' :: (tpStr ty).toList) ++ (')' :: renderP tl)))
        simp [List.append_assoc]
      have hbc : (bc + 1 - 1 : Int) = bc := by omega
      have hgc : (gc + 1) + nFields tl = gc + nFields (Seg.field nm ty :: tl) := by
        show gc + 1 + nFields tl = gc + (nFields tl + 1)
        omega
      rw [hp, hbc, hgc]
      rfl

/-- `parse_format` on a rendered template: anchored pattern, search pattern
and the declaration-order field map. -/
theorem parseFormat_render (segs : List Seg) (hg : goodSegs segs = true)
    (hnd : ((expectedFrom 0 (segFields segs)).map Prod.fst).Nodup) :
    ∃ fts, parseFormat (String.mk (renderT segs)) defaultTypes =
      .ok (String.mk ('^' :: (renderP segs ++ ['$'])), String.mk (renderP segs),
           expectedFrom 0 (segFields segs), fts) := by
  obtain ⟨it, cf, ct, fts, hrun⟩ := pfLoop_render segs hg pfInit rfl
  refine ⟨fts, ?_⟩
  unfold parseFormat
  rw [show (String.mk (renderT segs)).toList = renderT segs from rfl]
  rw [hrun]
  dsimp only [pfInit]
  rw [if_neg (by simp)]
  have hm : extendMap ([] : List (String × Nat)) 0 (segFields segs) =
      expectedFrom 0 (segFields segs) :=
    (extendMap_append (segFields segs) 0 [] hnd (by simp)).trans (List.nil_append _)
  rw [hm]
  rfl

set_option maxHeartbeats 2000000 in
/-- The regex parser consumes a safe literal character as `RE.lit`. -/
theorem rparse_lit (c : Char) (hc : safeLit c = true) (tl : List Char) (g : Nat) (f : PFrame) :
    rparseAux (c :: tl) .top g [] f =
      rparseAux tl .top g [] { f with cur := RE.lit c :: f.cur } := by
  simp only [safeLit] at hc
  simp at hc
  obtain ⟨h1, h2, h3, h4, h5, h6, h7, h8, h9, h10, h11, h12, h13, h14, h15⟩ := hc
  rw [rparseAux.eq_10 g f c tl (fun _ h _ => absurd h h1) (fun h => absurd h h1)
    (fun _ _ h _ => absurd h h7) (fun h _ => absurd h h7)
    (fun _ h _ => absurd h h3) (fun h => absurd h h3)]
  rw [if_neg h2, if_neg h9, if_neg h10, if_neg h11, if_neg h12, if_neg h5, if_neg h8,
    if_neg h13, if_neg h14]

section
set_option maxHeartbeats 2000000

/-- Opening a capturing group (next character not `?`). -/
theorem rp_open (d : Char) (hd : ¬ d = '?') (tl : List Char) (g : Nat)
    (stack : List PFrame) (f : PFrame) :
    rparseAux ('(' :: d :: tl) .top g stack f =
      rparseAux (d :: tl) .top (g + 1) (f :: stack) ⟨some g, [], []⟩ :=
  rparseAux.eq_5 g stack f (d :: tl)
    (fun _ h => absurd (List.head_eq_of_cons_eq h) hd)

/-- A resolved escape at top level. -/
theorem rp_escTop (e : Char) (re : RE) (he : escRE e = some re) (tl : List Char) (g : Nat)
    (stack : List PFrame) (f : PFrame) :
    rparseAux ('\\' :: e :: tl) .top g stack f =
      rparseAux tl .top g stack { f with cur := re :: f.cur } := by
  rw [rparseAux.eq_6, he]

/-- A resolved escape inside a character class. -/
theorem rp_escCls (e : Char) (it : CItem) (he : escItem e = some it) (tl : List Char)
    (g : Nat) (stack : List PFrame) (f : PFrame) (neg : Bool) (items : List CItem) :
    rparseAux ('\\' :: e :: tl) (.inCls neg items) g stack f =
      rparseAux tl (.inCls neg (items ++ [it])) g stack f := by
  rw [rparseAux.eq_13, he]

/-- A safe literal inside an open group. -/
theorem rp_lit1 (c : Char) (hc : safeLit c = true) (tl : List Char) (g : Nat)
    (pf : PFrame) (stack2 : List PFrame) (f : PFrame) :
    rparseAux (c :: tl) .top g (pf :: stack2) f =
      rparseAux tl .top g (pf :: stack2) { f with cur := RE.lit c :: f.cur } := by
  simp only [safeLit] at hc
  simp at hc
  obtain ⟨h1, h2, h3, h4, h5, h6, h7, h8, h9, h10, h11, h12, h13, h14, h15⟩ := hc
  rw [rparseAux.eq_11 g f c tl pf stack2 (fun _ h _ => absurd h h1) (fun h => absurd h h1)
    (fun _ _ h _ => absurd h h7) (fun h _ => absurd h h7)
    (fun _ h _ => absurd h h3) (fun h => absurd h h3)]
  rw [if_neg h2, if_neg h9, if_neg h10, if_neg h11, if_neg h12, if_neg h5, if_neg h8,
    if_neg h13, if_neg h14]

/-- `?` applied to the most recent atom, inside an open group. -/
theorem rp_quest (tl : List Char) (g : Nat) (pf : PFrame) (stack2 : List PFrame)
    (f : PFrame) (a : RE) (cs : List RE) (hc : f.cur = a :: cs) :
    rparseAux ('?' :: tl) .top g (pf :: stack2) f =
      rparseAux tl .top g (pf :: stack2) { f with cur := RE.opt a :: cs } := by
  rw [rparseAux.eq_11 g f '?' tl pf stack2 (fun _ h _ => absurd h (by decide))
    (fun h => absurd h (by decide)) (fun _ _ h _ => absurd h (by decide))
    (fun h _ => absurd h (by decide)) (fun _ h _ => absurd h (by decide))
    (fun h => absurd h (by decide))]
  rw [if_neg (by decide), if_neg (by decide), if_pos rfl, hc]

/-- `*` applied to the most recent atom, inside an open group. -/
theorem rp_star (tl : List Char) (g : Nat) (pf : PFrame) (stack2 : List PFrame)
    (f : PFrame) (a : RE) (cs : List RE) (hc : f.cur = a :: cs) :
    rparseAux ('*' :: tl) .top g (pf :: stack2) f =
      rparseAux tl .top g (pf :: stack2) { f with cur := RE.star a :: cs } := by
  rw [rparseAux.eq_11 g f '*' tl pf stack2 (fun _ h _ => absurd h (by decide))
    (fun h => absurd h (by decide)) (fun _ _ h _ => absurd h (by decide))
    (fun h _ => absurd h (by decide)) (fun _ h _ => absurd h (by decide))
    (fun h => absurd h (by decide))]
  rw [if_neg (by decide), if_neg (by decide), if_neg (by decide), if_pos rfl, hc]

/-- `+` applied to the most recent atom, inside an open group. -/
theorem rp_plus (tl : List Char) (g : Nat) (pf : PFrame) (stack2 : List PFrame)
    (f : PFrame) (a : RE) (cs : List RE) (hc : f.cur = a :: cs) :
    rparseAux ('+' :: tl) .top g (pf :: stack2) f =
      rparseAux tl .top g (pf :: stack2) { f with cur := RE.seq a (RE.star a) :: cs } := by
  rw [rparseAux.eq_11 g f '+' tl pf stack2 (fun _ h _ => absurd h (by decide))
    (fun h => absurd h (by decide)) (fun _ _ h _ => absurd h (by decide))
    (fun h _ => absurd h (by decide)) (fun _ h _ => absurd h (by decide))
    (fun h => absurd h (by decide))]
  rw [if_neg (by decide), if_neg (by decide), if_neg (by decide), if_neg (by decide),
    if_pos rfl, hc]

/-- Closing a group. -/
theorem rp_close (tl : List Char) (g : Nat) (pf : PFrame) (stack2 : List PFrame)
    (f : PFrame) :
    rparseAux (')' :: tl) .top g (pf :: stack2) f =
      rparseAux tl .top g stack2 { pf with cur := frameClose f :: pf.cur } := by
  rw [rparseAux.eq_11 g f ')' tl pf stack2 (fun _ h _ => absurd h (by decide))
    (fun h => absurd h (by decide)) (fun _ _ h _ => absurd h (by decide))
    (fun h _ => absurd h (by decide)) (fun _ h _ => absurd h (by decide))
    (fun h => absurd h (by decide))]
  rw [if_pos rfl]

/-- The regex parser consumes a rendered untyped group. -/
theorem rparse_group_u (tl : List Char) (g : Nat) (f : PFrame) :
    rparseAux ('(' :: ((tpStr "").toList ++ (')' :: tl))) .top g [] f =
      rparseAux tl .top (g + 1) [] { f with cur := RE.group g (tpRE "") :: f.cur } := by
  show rparseAux ('(' :: '[' :: '^' :: '\\' :: 's' :: ']' :: '+' :: ')' :: tl) .top g [] f = _
  rw [rp_open '[' (by decide), rparseAux.eq_8,
    rp_escCls 's' .space rfl, rparseAux.eq_12,
    rp_plus _ _ _ _ _ _ _ rfl, rp_close]
  rfl

/-- The regex parser consumes a rendered `d` group. -/
theorem rparse_group_d (tl : List Char) (g : Nat) (f : PFrame) :
    rparseAux ('(' :: ((tpStr "d").toList ++ (')' :: tl))) .top g [] f =
      rparseAux tl .top (g + 1) [] { f with cur := RE.group g (tpRE "d") :: f.cur } := by
  show rparseAux ('(' :: '-' :: '?' :: '\\' :: 'd' :: '+' :: ')' :: tl) .top g [] f = _
  rw [rp_open '-' (by decide), rp_lit1 '-' (by decide),
    rp_quest _ _ _ _ _ _ _ rfl, rp_escTop 'd' (.cls false [.digit]) rfl,
    rp_plus _ _ _ _ _ _ _ rfl, rp_close]
  rfl

/-- The regex parser consumes a rendered `f` group. -/
theorem rparse_group_f (tl : List Char) (g : Nat) (f : PFrame) :
    rparseAux ('(' :: ((tpStr "f").toList ++ (')' :: tl))) .top g [] f =
      rparseAux tl .top (g + 1) [] { f with cur := RE.group g (tpRE "f") :: f.cur } := by
  show rparseAux
    ('(' :: '-' :: '?' :: '\\' :: 'd' :: '*' :: '\\' :: '.' :: '?' :: '\\' :: 'd' :: '+' ::
      ')' :: tl) .top g [] f = _
  rw [rp_open '-' (by decide), rp_lit1 '-' (by decide),
    rp_quest _ _ _ _ _ _ _ rfl, rp_escTop 'd' (.cls false [.digit]) rfl,
    rp_star _ _ _ _ _ _ _ rfl, rp_escTop '.' (.lit '.') rfl,
    rp_quest _ _ _ _ _ _ _ rfl, rp_escTop 'd' (.cls false [.digit]) rfl,
    rp_plus _ _ _ _ _ _ _ rfl, rp_close]
  rfl

/-- The regex parser consumes a rendered `w` group. -/
theorem rparse_group_w (tl : List Char) (g : Nat) (f : PFrame) :
    rparseAux ('(' :: ((tpStr "w").toList ++ (')' :: tl))) .top g [] f =
      rparseAux tl .top (g + 1) [] { f with cur := RE.group g (tpRE "w") :: f.cur } := by
  show rparseAux ('(' :: '\\' :: 'w' :: '+' :: ')' :: tl) .top g [] f = _
  rw [rp_open '\\' (by decide), rp_escTop 'w' (.cls false [.word]) rfl,
    rp_plus _ _ _ _ _ _ _ rfl, rp_close]
  rfl

end

/-- The regex parser over the whole rendered pattern body. -/
theorem rparse_render (segs : List Seg) (hg : goodSegs segs = true) :
    ∀ (tail : List Char) (g : Nat) (f : PFrame),
      rparseAux (renderP segs ++ tail) .top g [] f =
        rparseAux tail .top (g + nFields segs) []
          { f with cur := (segsREs g segs).reverse ++ f.cur } := by
  induction segs with
  | nil =>
    intro tail g f
    show rparseAux tail .top g [] f = _
    have h1 : ((segsREs g []).reverse ++ f.cur) = f.cur := by simp [segsREs]
    rw [h1]
    rfl
  | cons s tl ih =>
    cases s with
    | lit c =>
      intro tail g f
      have hsafe : safeLit c = true :=
        List.all_eq_true.mp hg (Seg.lit c) (List.mem_cons_self _ _)
      have hgtl : goodSegs tl = true := by
        simp only [goodSegs, List.all_cons, Bool.and_eq_true] at hg
        exact hg.2
      show rparseAux (c :: (renderP tl ++ tail)) .top g [] f = _
      rw [rparse_lit c hsafe (renderP tl ++ tail) g f]
      rw [ih hgtl tail g { f with cur := RE.lit c :: f.cur }]
      have h2 : (segsREs g tl).reverse ++ (RE.lit c :: f.cur) =
          (segsREs g (Seg.lit c :: tl)).reverse ++ f.cur := by
        show _ = (RE.lit c :: segsREs g tl).reverse ++ f.cur
        simp
      dsimp only
      rw [h2]
      rfl
    | field nm ty =>
      intro tail g f
      have hgood : goodSeg (Seg.field nm ty) = true :=
        List.all_eq_true.mp hg _ (List.mem_cons_self _ _)
      have hgtl : goodSegs tl = true := by
        simp only [goodSegs, List.all_cons, Bool.and_eq_true] at hg
        exact hg.2
      simp only [goodSeg, Bool.and_eq_true] at hgood
      have hty : ty = "" ∨ ty = "d" ∨ ty = "f" ∨ ty = "w" := by
        simpa using hgood.2
      have hstep : rparseAux (renderP (Seg.field nm ty :: tl) ++ tail) .top g [] f =
          rparseAux (renderP tl ++ tail) .top (g + 1) []
            { f with cur := RE.group g (tpRE ty) :: f.cur } := by
        have hsh : renderP (Seg.field nm ty :: tl) ++ tail =
            '(' :: ((tpStr ty).toList ++ (')' :: (renderP tl ++ tail))) := by
          show ('(' :: (tpStr ty).toList ++ (')' :: renderP tl)) ++ tail = _
          simp [List.cons_append, List.append_assoc]
        rw [hsh]
        rcases hty with rfl | rfl | rfl | rfl
        · exact rparse_group_u (renderP tl ++ tail) g f
        · exact rparse_group_d (renderP tl ++ tail) g f
        · exact rparse_group_f (renderP tl ++ tail) g f
        · exact rparse_group_w (renderP tl ++ tail) g f
      rw [hstep]
      rw [ih hgtl tail (g + 1) { f with cur := RE.group g (tpRE ty) :: f.cur }]
      have h2 : (segsREs (g + 1) tl).reverse ++ (RE.group g (tpRE ty) :: f.cur) =
          (segsREs g (Seg.field nm ty :: tl)).reverse ++ f.cur := by
        show _ = (RE.group g (tpRE ty) :: segsREs (g + 1) tl).reverse ++ f.cur
        simp
      have h3 : g + 1 + nFields tl = g + nFields (Seg.field nm ty :: tl) := by
        show _ = g + (nFields tl + 1)
        omega
      dsimp only
      rw [h2, h3]

theorem foldl_seq_reverse (items : List RE) :
    ∀ a : RE, (items.reverse).foldl (fun acc x => RE.seq x acc) a = chainAcc a items := by
  induction items with
  | nil => intro a; rfl
  | cons r tl ih =>
    intro a
    simp only [List.reverse_cons, List.foldl_append, List.foldl_cons, List.foldl_nil]
    rw [ih a]
    rfl

/-- The compiled anchored pattern of a rendered template. -/
theorem compile_render_exact (segs : List Seg) (hg : goodSegs segs = true) :
    compileRegex (String.mk ('^' :: (renderP segs ++ ['$']))) =
      some (.seq .bol (chainAcc (.seq .eol .eps) (segsREs 1 segs))) := by
  unfold compileRegex
  show (rparseAux ('^' :: (renderP segs ++ ['$'])) .top 1 [] ⟨none, [], []⟩).map _ = _
  have hcar : rparseAux ('^' :: (renderP segs ++ ['$'])) .top 1 [] ⟨none, [], []⟩ =
      rparseAux (renderP segs ++ ['$']) .top 1 [] ⟨none, [], [.bol]⟩ := by
    rw [rparseAux.eq_10 1 ⟨none, [], []⟩ '^' (renderP segs ++ ['$'])
      (fun _ h _ => absurd h (by decide)) (fun h => absurd h (by decide))
      (fun _ _ h _ => absurd h (by decide)) (fun h _ => absurd h (by decide))
      (fun _ h _ => absurd h (by decide)) (fun h => absurd h (by decide))]
    rw [if_neg (by decide), if_neg (by decide), if_neg (by decide), if_neg (by decide),
      if_neg (by decide), if_neg (by decide), if_neg (by decide), if_pos rfl]
  rw [hcar, rparse_render segs hg ['$'] 1 ⟨none, [], [.bol]⟩]
  have hdol : rparseAux ['$'] .top (1 + nFields segs) []
      ⟨none, [], (segsREs 1 segs).reverse ++ [.bol]⟩ =
      some (frameClose ⟨none, [], RE.eol :: ((segsREs 1 segs).reverse ++ [.bol])⟩,
        1 + nFields segs) := rfl
  show (rparseAux ['$'] .top (1 + nFields segs) []
      ⟨none, [], (segsREs 1 segs).reverse ++ [.bol]⟩).map _ = _
  rw [hdol]
  have hfc : frameClose ⟨none, [], RE.eol :: ((segsREs 1 segs).reverse ++ [.bol])⟩ =
      .seq .bol (chainAcc (.seq .eol .eps) (segsREs 1 segs)) := by
    show curRE (RE.eol :: ((segsREs 1 segs).reverse ++ [.bol])) = _
    unfold curRE
    rw [show (RE.eol :: ((segsREs 1 segs).reverse ++ [.bol])) =
      ((RE.eol :: (segsREs 1 segs).reverse) ++ [.bol]) from by simp]
    rw [List.foldl_append]
    simp only [List.foldl_cons, List.foldl_nil]
    rw [foldl_seq_reverse]
  rw [hfc]
  rfl

/-- The search pattern of a rendered template also compiles. -/
theorem compile_render_search (segs : List Seg) (hg : goodSegs segs = true) :
    ∃ re, compileRegex (String.mk (renderP segs)) = some re := by
  unfold compileRegex
  show ∃ re, (rparseAux (renderP segs) .top 1 [] ⟨none, [], []⟩).map _ = some re
  rw [show renderP segs = renderP segs ++ [] from by simp]
  rw [rparse_render segs hg [] 1 ⟨none, [], []⟩]
  exact ⟨_, rfl⟩

/-- `Parser::new` on a rendered template (case-sensitive). -/
theorem parserNew_render (segs : List Seg) (hg : goodSegs segs = true)
    (hnd : ((expectedFrom 0 (segFields segs)).map Prod.fst).Nodup) :
    ∃ p, Parser.new (String.mk (renderT segs)) true = .ok p ∧
      p.pattern = .seq .bol (chainAcc (.seq .eol .eps) (segsREs 1 segs)) ∧
      p.field_map = expectedFrom 0 (segFields segs) ∧ p.ci = false := by
  obtain ⟨fts, hpf⟩ := parseFormat_render segs hg hnd
  obtain ⟨re2, hre2⟩ := compile_render_search segs hg
  have hre1 := compile_render_exact segs hg
  refine ⟨⟨.seq .bol (chainAcc (.seq .eol .eps) (segsREs 1 segs)), re2,
    expectedFrom 0 (segFields segs), fts, defaultTypes, false⟩, ?_, rfl, rfl, rfl⟩
  unfold Parser.new
  rw [hpf]
  dsimp only
  rw [hre1, hre2]
  rfl

/-- An anchored pattern cannot match away from the start. -/
theorem mtch_anchored_off (ci : Bool) (total : Nat) (r : RE) (fuel : Nat) (rest : List Char)
    (caps : Caps) (h : rest.length ≠ total) :
    mtch ci total fuel (.seq .bol r) rest caps = [] := by
  match fuel with
  | 0 => rfl
  | 1 => rfl
  | fuel + 2 =>
    show (mtch ci total (fuel + 1) .bol rest caps).flatMap _ = []
    rw [show mtch ci total (fuel + 1) .bol rest caps =
      if rest.length = total then [(rest, caps)] else [] from rfl]
    rw [if_neg h]
    rfl

/-- Leftmost search with an anchored pattern fails on every proper suffix. -/
theorem searchFrom_short (ci : Bool) (r : RE) (total : Nat) :
    ∀ ls : List Char, ls.length < total →
      searchFrom ci (.seq .bol r) total ls = none := by
  intro ls
  induction ls with
  | nil =>
    intro h
    simp only [searchFrom]
    rw [mtch_anchored_off ci total r _ [] [] (Nat.ne_of_lt h)]
    rfl
  | cons c tl ih =>
    intro h
    simp only [searchFrom]
    rw [mtch_anchored_off ci total r _ (c :: tl) [] (Nat.ne_of_lt h)]
    exact ih (Nat.lt_of_succ_lt h)

/-- A successful anchored search comes from the matcher run at the start of
the text, and returns its captures. -/
theorem searchFrom_anchored (ci : Bool) (r : RE) (total : Nat) (ls : List Char)
    (x : Nat × Nat × Caps) (hlen : ls.length = total)
    (h : searchFrom ci (.seq .bol r) total ls = some x) :
    ∃ rc, rc ∈ mtch ci total (fuelFor (.seq .bol r) total) (.seq .bol r) ls [] ∧
      x.2.2 = rc.2 := by
  cases ls with
  | nil =>
    simp only [searchFrom] at h
    cases hm : (mtch ci total (fuelFor (.seq .bol r) total) (.seq .bol r) [] []).head? with
    | none => rw [hm] at h; cases h
    | some rc =>
      rw [hm] at h
      refine ⟨rc, mem_of_head_some hm, ?_⟩
      obtain rfl := Option.some.inj h
      rfl
  | cons c tl =>
    simp only [searchFrom] at h
    cases hm : (mtch ci total (fuelFor (.seq .bol r) total) (.seq .bol r) (c :: tl) []).head? with
    | none =>
      rw [hm] at h
      have hnone : searchFrom ci (.seq .bol r) total tl = none :=
        searchFrom_short ci r total tl (by rw [← hlen]; simp)
      rw [hnone] at h
      cases h
    | some rc =>
      rw [hm] at h
      refine ⟨rc, mem_of_head_some hm, ?_⟩
      obtain rfl := Option.some.inj h
      rfl

/-- Inside a field, the reconstruction scan skips to the closing `\x7d`. -/
theorem reconstructAux_skip (cs : List Char) (hcs : ∀ c ∈ cs, ¬ c = '\x7d') :
    ∀ (tl : List Char) (raws : List String),
      reconstructAux (cs ++ tl) raws true = reconstructAux tl raws true := by
  induction cs with
  | nil => intro tl raws; rw [List.nil_append]
  | cons c cs ih =>
    intro tl raws
    have hket : ¬ c = '\x7d' := hcs c (List.mem_cons_self _ _)
    have hcs2 : ∀ d ∈ cs, ¬ d = '\x7d' := fun d hd => hcs d (List.mem_cons_of_mem _ hd)
    rw [List.cons_append]
    rw [reconstructAux.eq_7 raws c (cs ++ tl) (fun _ _ h _ => absurd h hket)
      (fun h _ => absurd h hket)]
    exact ih hcs2 tl raws

theorem expectedFrom_length (l : List (String × String)) :
    ∀ g0 : Nat, (expectedFrom g0 l).length = l.length := by
  induction l with
  | nil => intro g0; rfl
  | cons f tl ih =>
    intro g0
    obtain ⟨nm, ty⟩ := f
    simp [expectedFrom, ih]

theorem segFields_length (segs : List Seg) : (segFields segs).length = nFields segs := by
  induction segs with
  | nil => rfl
  | cons s tl ih => cases s <;> simp [segFields, nFields, ih]

/-- The spec's reconstruction over a rendered template substitutes the raws
at the field positions. -/
theorem reconstructAux_render (segs : List Seg) (hg : goodSegs segs = true) :
    ∀ raws : List (List Char), raws.length = nFields segs →
      reconstructAux (renderT segs) (raws.map String.mk) false =
        some (flattenChars segs raws) := by
  induction segs with
  | nil =>
    intro raws hlen
    have hz : raws = [] := List.eq_nil_of_length_eq_zero hlen
    subst hz
    rfl
  | cons s tl ih =>
    cases s with
    | lit c =>
      intro raws hlen
      have hsafe : safeLit c = true := List.all_eq_true.mp hg _ (List.mem_cons_self _ _)
      have hgtl : goodSegs tl = true := by
        simp only [goodSegs, List.all_cons, Bool.and_eq_true] at hg
        exact hg.2
      simp only [safeLit] at hsafe
      simp at hsafe
      obtain ⟨_, _, _, _, hbra, hket, _, _, _, _, _, _, _, _, _⟩ := hsafe
      show reconstructAux (c :: renderT tl) (raws.map String.mk) false = _
      rw [reconstructAux.eq_8 (raws.map String.mk) c (renderT tl)
        (fun _ h _ => absurd h hbra) (fun _ h _ => absurd h hket) (fun h => absurd h hbra)]
      rw [ih hgtl raws hlen]
      rfl
    | field nm ty =>
      intro raws hlen
      have hgood : goodSeg (Seg.field nm ty) = true :=
        List.all_eq_true.mp hg _ (List.mem_cons_self _ _)
      have hgtl : goodSegs tl = true := by
        simp only [goodSegs, List.all_cons, Bool.and_eq_true] at hg
        exact hg.2
      simp only [goodSeg, Bool.and_eq_true] at hgood
      obtain ⟨hnm, htyc⟩ := hgood
      have hty : ty = "" ∨ ty = "d" ∨ ty = "f" ∨ ty = "w" := by
        simpa using htyc
      have hnm2 : ∀ c ∈ nm.toList, ¬ c = '\x7d' := by
        intro c hc
        have := List.all_eq_true.mp hnm c hc
        simp at this
        exact this.2.1
      cases raws with
      | nil =>
        rw [show nFields (Seg.field nm ty :: tl) = nFields tl + 1 from rfl] at hlen
        simp at hlen
      | cons raw raws2 =>
        have hlen2 : raws2.length = nFields tl := by
          rw [show nFields (Seg.field nm ty :: tl) = nFields tl + 1 from rfl] at hlen
          simpa using hlen
        rcases hty with rfl | rfl | rfl | rfl
        · have hsh : renderT (Seg.field nm "" :: tl) =
              '\x7b' :: (nm.toList ++ ('\x7d' :: renderT tl)) := by
            simp [renderT, renderF]
          rw [hsh]
          rw [reconstructAux.eq_4 _ _ (name_head_not nm hnm '\x7d' (by decide) _)]
          rw [reconstructAux_skip nm.toList hnm2]
          rw [show ((raw :: raws2).map String.mk) = String.mk raw :: raws2.map String.mk
            from rfl]
          rw [reconstructAux.eq_5]
          rw [ih hgtl raws2 hlen2]
          rfl
        · have hsh : renderT (Seg.field nm "d" :: tl) =
              '\x7b' :: (nm.toList ++ (':' :: 'd' :: '\x7d' :: renderT tl)) := by
            simp [renderT, renderF]
          rw [hsh]
          rw [reconstructAux.eq_4 _ _ (name_head_not nm hnm ':' (by decide) _)]
          rw [reconstructAux_skip nm.toList hnm2]
          rw [show (':' :: 'd' :: '\x7d' :: renderT tl) =
            [':', 'd'] ++ ('\x7d' :: renderT tl) from rfl]
          rw [reconstructAux_skip [':', 'd'] (by decide)]
          rw [show ((raw :: raws2).map String.mk) = String.mk raw :: raws2.map String.mk
            from rfl]
          rw [reconstructAux.eq_5]
          rw [ih hgtl raws2 hlen2]
          rfl
        · have hsh : renderT (Seg.field nm "f" :: tl) =
              '\x7b' :: (nm.toList ++ (':' :: 'f' :: '\x7d' :: renderT tl)) := by
            simp [renderT, renderF]
          rw [hsh]
          rw [reconstructAux.eq_4 _ _ (name_head_not nm hnm ':' (by decide) _)]
          rw [reconstructAux_skip nm.toList hnm2]
          rw [show (':' :: 'f' :: '\x7d' :: renderT tl) =
            [':', 'f'] ++ ('\x7d' :: renderT tl) from rfl]
          rw [reconstructAux_skip [':', 'f'] (by decide)]
          rw [show ((raw :: raws2).map String.mk) = String.mk raw :: raws2.map String.mk
            from rfl]
          rw [reconstructAux.eq_5]
          rw [ih hgtl raws2 hlen2]
          rfl
        · have hsh : renderT (Seg.field nm "w" :: tl) =
              '\x7b' :: (nm.toList ++ (':' :: 'w' :: '\x7d' :: renderT tl)) := by
            simp [renderT, renderF]
          rw [hsh]
          rw [reconstructAux.eq_4 _ _ (name_head_not nm hnm ':' (by decide) _)]
          rw [reconstructAux_skip nm.toList hnm2]
          rw [show (':' :: 'w' :: '\x7d' :: renderT tl) =
            [':', 'w'] ++ ('\x7d' :: renderT tl) from rfl]
          rw [reconstructAux_skip [':', 'w'] (by decide)]
          rw [show ((raw :: raws2).map String.mk) = String.mk raw :: raws2.map String.mk
            from rfl]
          rw [reconstructAux.eq_5]
          rw [ih hgtl raws2 hlen2]
          rfl

/-- **C2 (amended).** For a template rendered from segments whose literal
characters are special neither to the template syntax nor to the regex
syntax, whose field types are among the pattern-bearing registry types
(`d`, `f`, `w`) or untyped, and whose normalized field identifiers are
pairwise distinct: for every text on which the case-sensitive exact match
succeeds, substituting each field's raw captured substring (`fixed`, in
declaration order) back into its template position and copying the
template's literal text verbatim reconstructs the input exactly.  (As
stated over all compiling templates the claim is false: literals are not
regex-escaped, so a literal `.` matches any character and reconstruction
returns the template's `.`, not the consumed character.) -/
theorem C2_round_trip (segs : List Seg) (text : String) (p : Parser) (res : ParseResult)
    (hg : goodSegs segs = true)
    (hnd : ((expectedFrom 0 (segFields segs)).map Prod.fst).Nodup)
    (hp : Parser.new (String.mk (renderT segs)) true = .ok p)
    (hparse : p.parse text = some res) :
    reconstruct (String.mk (renderT segs)) res.fixed = some text := by
  obtain ⟨p2, hp2, hpat, hfm, hci⟩ := parserNew_render segs hg hnd
  rw [hp] at hp2
  obtain rfl := Except.ok.inj hp2
  unfold Parser.parse at hparse
  rw [hci, hpat] at hparse
  cases hcc : reCaptures false
      (.seq .bol (chainAcc (.seq .eol .eps) (segsREs 1 segs))) text with
  | none => rw [hcc] at hparse; cases hparse
  | some cc =>
    rw [hcc] at hparse
    dsimp only at hparse
    unfold reCaptures at hcc
    dsimp only at hcc
    cases hx : searchFrom false (.seq .bol (chainAcc (.seq .eol .eps) (segsREs 1 segs)))
        text.toList.length text.toList with
    | none => rw [hx] at hcc; cases hcc
    | some x =>
      rw [hx] at hcc
      obtain rfl := Option.some.inj hcc
      obtain ⟨rc, hmem, hcaps⟩ :=
        searchFrom_anchored false _ text.toList.length text.toList x rfl hx
      obtain ⟨f2, rc1, hfuel, h1, h2⟩ := mem_mtch_seq hmem
      obtain ⟨hlen1, hrc1⟩ := mem_mtch_bol h1
      subst hrc1
      obtain ⟨raws, E, hD, hrc⟩ :=
        mtch_chain text.toList.length segs 1 f2 text.toList [] rc h2
      have hE : x.2.2 = E := by
        rw [hcaps, hrc]
        simp
      have hraws : raws.length = nFields segs := Decomp_raws_length hD
      have hflat : text.toList = flattenChars segs raws := Decomp_flatten hD
      dsimp only at hparse
      rw [hfm, hE] at hparse
      have hv : ∀ j, j < (segFields segs).length →
          ∃ sp, CapsCtx.get ⟨text.toList, x.1, x.2.1, E⟩ (0 + j + 1) =
            some (String.mk (raws.getD (0 + j) []), sp) := by
        intro j hj
        have hj2 : j < raws.length := by
          rw [hraws, ← segFields_length]
          exact hj
        obtain ⟨sp, hsp⟩ := capsGet_decomp hD x.1 x.2.1 j hj2
        refine ⟨sp, ?_⟩
        simp only [Nat.zero_add]
        exact hsp
      have hlenk : (0 : Nat) + (segFields segs).length ≤
          (List.replicate (expectedFrom 0 (segFields segs)).length "", ([] : List (String × String)),
            ([] : List (Nat × Nat))).1.length := by
        simp [expectedFrom_length]
      obtain ⟨hfl, hfg⟩ := foldFirst_fixed ⟨text.toList, x.1, x.2.1, E⟩
        (fun i => String.mk (raws.getD i [])) (segFields segs) 0
        (List.replicate (expectedFrom 0 (segFields segs)).length "", [], []) hv hlenk
      cases hpc : processCapturesWith p (expectedFrom 0 (segFields segs))
          ⟨text.toList, x.1, x.2.1, E⟩ with
      | error e => rw [hpc] at hparse; cases hparse
      | ok r =>
        rw [hpc] at hparse
        obtain rfl := Option.some.inj hparse
        have hfix : r.fixed =
            ((expectedFrom 0 (segFields segs)).foldl
              (fun (acc : List String × List (String × String) × List (Nat × Nat)) e =>
                match CapsCtx.get ⟨text.toList, x.1, x.2.1, E⟩ e.2 with
                | some v => (acc.1.set (e.2 - 1) v.1, insertAssoc acc.2.1 e.1 v.1,
                    acc.2.2 ++ [(v.2.1, v.2.2)])
                | none => acc)
              (List.replicate (expectedFrom 0 (segFields segs)).length "", [], [])).1 := by
          unfold processCapturesWith at hpc
          rw [hfm] at hpc
          dsimp only at hpc
          split at hpc
          · cases hpc
          · obtain rfl := Except.ok.inj hpc
            rfl
        have hfr : r.fixed = raws.map String.mk := by
          rw [hfix]
          apply List.ext_getElem?
          intro i
          rw [hfg i]
          by_cases hik : i < (segFields segs).length
          · rw [if_pos ⟨Nat.zero_le i, by simpa using hik⟩]
            have hik2 : i < raws.length := by
              rw [hraws, ← segFields_length]
              exact hik
            rw [List.getElem?_map, List.getElem?_eq_getElem hik2,
              List.getD_eq_getElem raws [] hik2]
            rfl
          · rw [if_neg (by simp only [Nat.zero_add, Nat.zero_le, true_and]; exact hik)]
            rw [List.getElem?_map]
            have hn1 : (List.replicate (expectedFrom 0 (segFields segs)).length "")[i]? =
                none := by
              apply List.getElem?_eq_none
              simp only [List.length_replicate, expectedFrom_length]
              omega
            have hn2 : raws[i]? = none := by
              apply List.getElem?_eq_none
              rw [hraws, ← segFields_length]
              omega
            rw [hn1, hn2]
            rfl
        unfold reconstruct
        rw [show (String.mk (renderT segs)).toList = renderT segs from rfl]
        rw [hfr, reconstructAux_render segs hg raws hraws]
        rw [← hflat]
        rfl

/-- **C2 counterexample.** The claim as written (over every compiling
template) is false: literal characters are not regex-escaped, so in the
template `a.c\x7b\x7d` the literal `.` matches `b` in `abcd`, and reconstruction
copies the template's `.` instead, producing `a.cd`. -/
theorem C2_counterexample :
    ((Parser.new "a.c\x7b\x7d" true).toOption.bind (fun p => p.parse "abcd")).map
        (fun res => reconstruct "a.c\x7b\x7d" res.fixed) = some (some "a.cd") ∧
      ("a.cd" : String) ≠ "abcd" := by
  constructor
  · decide
  · decide

/-- Witness for C2: the template `a\x7bx:d\x7d \x7b\x7d` parses `a42 yz` and
reconstruction returns the input. -/
theorem C2_witness :
    ∃ p res, Parser.new (String.mk (renderT
        [Seg.lit 'a', Seg.field "x" "d", Seg.lit ' ', Seg.field "" ""])) true = .ok p ∧
      p.parse "a42 yz" = some res ∧
      reconstruct (String.mk (renderT
        [Seg.lit 'a', Seg.field "x" "d", Seg.lit ' ', Seg.field "" ""])) res.fixed =
        some "a42 yz" := by
  have hsome : (((Parser.new (String.mk (renderT
      [Seg.lit 'a', Seg.field "x" "d", Seg.lit ' ', Seg.field "" ""])) true).toOption.bind
      (fun p => p.parse "a42 yz")).isSome) = true := by decide
  cases hp : Parser.new (String.mk (renderT
      [Seg.lit 'a', Seg.field "x" "d", Seg.lit ' ', Seg.field "" ""])) true with
  | error e =>
    rw [hp] at hsome
    cases hsome
  | ok p =>
    rw [hp] at hsome
    simp only [Except.toOption, Option.some_bind] at hsome
    obtain ⟨res, hres⟩ := Option.isSome_iff_exists.mp hsome
    exact ⟨p, res, rfl, hres,
      C2_round_trip [Seg.lit 'a', Seg.field "x" "d", Seg.lit ' ', Seg.field "" ""]
        "a42 yz" p res (by decide) (by decide) hp hres⟩

end ParseRust
